import Mathlib

set_option maxRecDepth 4000

/-!
Verification development for the `mcrender` isometric Minecraft renderer.

Each definition is a shallow embedding of the corresponding Rust item,
named after it where Lean allows.  Machine integers are modelled as `Nat`
with explicit `% 2^w` wherever wrapping can occur; fallible code returns
`Option`/`Except`.
-/

namespace Mcrender

/-! ## Canvas buffers (`src/canvas/buffer.rs`)

`ImageBuf<P, Container>` owns `width`, `height`, a precomputed
`len = width * height * P::CHANNELS`, and the backing container.  The pixel
type `P` only enters through `P::CHANNELS`, so the embedding carries the
channel count as a parameter and the backing buffer as a list of subpixels. -/

structure ImageBufM (α : Type) where
  width : Nat
  height : Nat
  len : Nat
  data : List α
deriving Repr, DecidableEq

/-- Rust `ImageBuf::from_raw(width, height, buf)`: computes
`len = width * height * channels` and returns `None` when `len < buf.len()`,
otherwise wraps the buffer (verbatim translation, including the direction of
the comparison). -/
def ImageBufM.from_raw (channels : Nat) (width height : Nat) (buf : List α) :
    Option (ImageBufM α) :=
  let len := width * height * channels
  if len < buf.length then
    none
  else
    some ⟨width, height, len, buf⟩

/-- Rust `ImageBuf::channels()` returns `&self.data[..self.len]`; the slice is only
in bounds (no panic) when `len ≤ data.len()`.  The embedding returns `none`
exactly when the Rust slice expression would panic. -/
def ImageBufM.channels (img : ImageBufM α) : Option (List α) :=
  if img.len ≤ img.data.length then
    some (img.data.take img.len)
  else
    none

/-- The backing-buffer invariant stated by the spec: the buffer contains at
least `width * height * channels` subpixels. -/
def ImageBufM.bufferInvariant (channels : Nat) (img : ImageBufM α) : Prop :=
  img.width * img.height * channels ≤ img.data.length

instance (channels : Nat) (img : ImageBufM α) :
    Decidable (img.bufferInvariant channels) := by
  unfold ImageBufM.bufferInvariant; infer_instance

/-! ## Final-canvas integer blend (`src/canvas/overlay.rs`, `src/canvas/scalar.rs`)

`blend_final_pixel_u8` exists twice in the source (overlay.rs and scalar.rs)
with textually identical bodies; one embedding covers both.  All intermediate
values are `u16` in Rust; since every intermediate stays below `2^16`
(`num ≤ 255*255 = 65025`), plain `Nat` arithmetic is exact, which is proved
in `blend_no_overflow` below. -/

/-- The fast integer `(x + ((x + 257) >> 8)) >> 8` division-by-255 used by the
scalar kernels (`scalar::u16_div_by_255`). -/
def u16_div_by_255 (a : Nat) : Nat :=
  (a + ((a + 257) >>> 8)) >>> 8

/-- Rust `blend_final_pixel_u8`: blend an RGBA foreground over an opaque RGB
background using only integer arithmetic. -/
def blend_final_pixel_u8 (bg : Nat × Nat × Nat) (fg : Nat × Nat × Nat)
    (fg_a : Nat) : Nat × Nat × Nat :=
  if fg_a = 0 then bg
  else if fg_a = 255 then fg
  else
    let fg_a_inv := 255 - fg_a
    let r := fg.1 * fg_a + bg.1 * fg_a_inv
    let g := fg.2.1 * fg_a + bg.2.1 * fg_a_inv
    let b := fg.2.2 * fg_a + bg.2.2 * fg_a_inv
    (u16_div_by_255 r, u16_div_by_255 g, u16_div_by_255 b)

/-- Spec-side definition: the integer formula of §4.2, written exactly as the
spec states it, to be compared against the code's `blend_final_pixel_u8`:
for `0 < a < 255` each channel is `(num + ((num + 257) >> 8)) >> 8` with
`num = fg.c * fg.a + bg.c * (255 - fg.a)`. -/
def specBlendChannel (bgc fgc fga : Nat) : Nat :=
  let num := fgc * fga + bgc * (255 - fga)
  (num + ((num + 257) >>> 8)) >>> 8

theorem u16_div_by_255_eq (a : Nat) :
    u16_div_by_255 a = (a + ((a + 257) / 256)) / 256 := by
  simp [u16_div_by_255, Nat.shiftRight_eq_div_pow]

/-- No `u16` overflow happens inside the blend: for byte-valued channels every
intermediate value stays below `2^16`. -/
theorem blend_no_overflow (bgc fgc fga : Nat) (hb : bgc ≤ 255) (hf : fgc ≤ 255)
    (ha : fga ≤ 255) :
    fgc * fga + bgc * (255 - fga) < 2 ^ 16 ∧
    fgc * fga + bgc * (255 - fga) + 257 < 2 ^ 16 := by
  have h1 : fgc * fga ≤ 255 * fga := Nat.mul_le_mul_right _ hf
  have h2 : bgc * (255 - fga) ≤ 255 * (255 - fga) := Nat.mul_le_mul_right _ hb
  have h3 : 255 * fga + 255 * (255 - fga) = 255 * 255 := by
    rw [← Nat.mul_add]
    congr 1
    omega
  have h4 : fgc * fga + bgc * (255 - fga) ≤ 255 * 255 := by
    calc fgc * fga + bgc * (255 - fga) ≤ 255 * fga + 255 * (255 - fga) :=
          Nat.add_le_add h1 h2
      _ = 255 * 255 := h3
  constructor <;> omega

/-! ## RGBA pixels and the overlay kernels
(`src/canvas/scalar.rs`, `src/canvas/avx2.rs`, `src/canvas/sse4.rs`,
`src/canvas/overlay.rs`) -/

/-- Rust `Rgba<u8>`: four byte channels. -/
structure Rgba where
  r : Nat
  g : Nat
  b : Nat
  a : Nat
deriving Repr, DecidableEq

/-- All four channels are byte-valued. -/
def Rgba.bytes (p : Rgba) : Prop :=
  p.r ≤ 255 ∧ p.g ≤ 255 ∧ p.b ≤ 255 ∧ p.a ≤ 255

instance (p : Rgba) : Decidable p.bytes := by
  unfold Rgba.bytes; infer_instance

/-- Rust `<Rgba<u8> as Overlay<Rgba<u8>>>::overlay_final`: blend the RGB channels
with `blend_final_pixel_u8`, leaving the destination alpha untouched. -/
def overlay_final_pixel (dst src : Rgba) : Rgba :=
  let out := blend_final_pixel_u8 (dst.r, dst.g, dst.b) (src.r, src.g, src.b) src.a
  ⟨out.1, out.2.1, out.2.2, dst.a⟩

/-- Rust `scalar::rgba8_overlay_final`: blend pixel-by-pixel over the zip of the two
slices (destination pixels beyond the source length stay untouched), and
report `dst_pixels.len()` as the number of pixels processed. -/
def scalar_rgba8_overlay_final (dst src : List Rgba) : List Rgba × Nat :=
  (dst.zipWith overlay_final_pixel src ++ dst.drop src.length, dst.length)

/-- Intrinsic `_mm256_adds_epu16` / `_mm_adds_epu16`: `u16` saturating addition. -/
def satAdd16 (x y : Nat) : Nat := min (x + y) 65535

/-- Intrinsic `_mm256_subs_epu16` / `_mm_subs_epu16`: `u16` saturating subtraction,
which on `Nat` is truncated subtraction. -/
def satSub16 (x y : Nat) : Nat := x - y

/-- Intrinsic `_mm256_mullo_epi16` / `_mm_mullo_epi16`: low 16 bits of the product. -/
def mullo16 (x y : Nat) : Nat := x * y % 65536

/-- Rust `u16x16_div_by_255` (identical in avx2.rs and sse4.rs): the divide-by-255
trick built from saturating adds and logical shifts. -/
def u16x16_div_by_255 (x : Nat) : Nat :=
  satAdd16 x (satAdd16 x 257 >>> 8) >>> 8

/-- One `u16` lane of `u16x16_rgba_overlay_final` (identical in avx2.rs and
sse4.rs): `divBy255(src * alpha + dst * (255 - alpha))` with wrapping
multiplies and saturating adds/subs. -/
def simd_blend_channel (d s al : Nat) : Nat :=
  u16x16_div_by_255 (satAdd16 (mullo16 s al) (mullo16 d (satSub16 255 al)))

/-- One pixel of the SIMD `rgba8_overlay_final` kernels: every channel goes
through `u16x16_rgba_overlay_final` (no special cases for alpha 0/255), and
the destination alpha is restored afterwards through the `alpha_mask`
blend. -/
def simd_blend_pixel (dst src : Rgba) : Rgba :=
  ⟨simd_blend_channel dst.r src.r src.a,
    simd_blend_channel dst.g src.g src.a,
    simd_blend_channel dst.b src.b src.a,
    dst.a⟩

/-- Rust `avx2::rgba8_overlay_final`: walks the slices in chunks of 8 pixels,
breaking off as soon as the destination chunk is shorter than 8, so it blends
exactly `8 * (len / 8)` pixels and returns that count.  Modelled for the
equal-length slices the dispatcher (which `assert_eq!`s the lengths) feeds
it. -/
def avx2_rgba8_overlay_final (dst src : List Rgba) : List Rgba × Nat :=
  let count := 8 * (dst.length / 8)
  ((dst.zipWith simd_blend_pixel src).take count ++ dst.drop count, count)

/-- The list of chunk-start indices of `(0..len).step_by(4)` — the loop header
of both SSE4 kernels, which has no in-bounds check on the final chunk. -/
def stepBy4 (len : Nat) : List Nat :=
  (List.range len).filter (fun i => i % 4 = 0)

/-- The pixel indices read and written by the 16-byte vector loads/stores of
`sse4::rgba8_overlay_final`: four pixels starting at every chunk start,
regardless of how many pixels actually remain. -/
def sse4_overlay_final_touched (len : Nat) : List Nat :=
  (stepBy4 len).flatMap (fun i => [i, i + 1, i + 2, i + 3])

/-- The count returned by `sse4::rgba8_overlay_final`: `count += 4` per loop
iteration. -/
def sse4_overlay_final_count (len : Nat) : Nat :=
  4 * (stepBy4 len).length

/-- Rust `sse4::rgba8_overlay_final`, defined only where it stays in bounds: when
the slice length is a multiple of 4 it blends every pixel with the SIMD
formula; otherwise the final 16-byte load/store falls outside the slice and
the embedding assigns no result. -/
def sse4_rgba8_overlay_final (dst src : List Rgba) : Option (List Rgba × Nat) :=
  if dst.length % 4 = 0 then
    some (dst.zipWith simd_blend_pixel src, dst.length)
  else
    none

/-- Rust `<[Rgba<u8>] as Overlay<[Rgba<u8>]>>::overlay_final`: assert equal
lengths, run the widest available kernel, then finish the remainder with the
scalar kernel if the count returned is short of the slice length. -/
def rgba8_overlay_final_slice (useAvx2 useSse4 : Bool) (dst src : List Rgba) :
    Option (List Rgba) :=
  if dst.length = src.length then
    if useAvx2 then
      let dn := avx2_rgba8_overlay_final dst src
      if dn.2 < dn.1.length then
        some (dn.1.take dn.2 ++
          (scalar_rgba8_overlay_final (dn.1.drop dn.2) (src.drop dn.2)).1)
      else
        some dn.1
    else if useSse4 then
      match sse4_rgba8_overlay_final dst src with
      | none => none
      | some dn =>
        if dn.2 < dn.1.length then
          some (dn.1.take dn.2 ++
            (scalar_rgba8_overlay_final (dn.1.drop dn.2) (src.drop dn.2)).1)
        else
          some dn.1
    else
      some (scalar_rgba8_overlay_final dst src).1
  else
    none

/-- Channel-wise distance at most 1 between two RGB triples. -/
def withinOne (a b : Nat × Nat × Nat) : Prop :=
  (a.1 - b.1 ≤ 1 ∧ b.1 - a.1 ≤ 1) ∧
  (a.2.1 - b.2.1 ≤ 1 ∧ b.2.1 - a.2.1 ≤ 1) ∧
  (a.2.2 - b.2.2 ≤ 1 ∧ b.2.2 - a.2.2 ≤ 1)

instance (a b : Nat × Nat × Nat) : Decidable (withinOne a b) := by
  unfold withinOne; infer_instance

/-! ## Packed palette indices (`src/world/mod.rs`, `RawChunk::parse`)

The block-state and biome index arrays of a section are decoded from a packed
long-array.  The embedding models one `i64` word as a `Nat` (the code
immediately reinterprets it `as u64`). -/

def SECTION_BLOCK_COUNT : Nat := 4096
def SECTION_BIOME_COUNT : Nat := 64

/-- Bit length, by repeated halving with explicit fuel (structural recursion,
so that the kernel can evaluate it on literals). -/
def bitLenAux : Nat → Nat → Nat
  | _, 0 => 0
  | 0, _ + 1 => 0
  | fuel + 1, v + 1 => bitLenAux fuel ((v + 1) / 2) + 1

/-- Bit length of a natural number (`u64::BITS - v.leading_zeros()` for
`v < 2^64`). -/
def bitLen (v : Nat) : Nat := bitLenAux v v

/-- Block-state bits per index:
`max(4, u64::BITS - (palette_count - 1).leading_zeros())`, with the wrapping
`u64` subtraction `palette_count - 1` made explicit. -/
def blockBits (paletteCount : Nat) : Nat :=
  max 4 (bitLen ((paletteCount + 2 ^ 64 - 1) % 2 ^ 64))

/-- Biome bits per index:
`u64::BITS - (palette_count - 1).leading_zeros()`, no minimum of 4. -/
def biomeBits (paletteCount : Nat) : Nat :=
  bitLen ((paletteCount + 2 ^ 64 - 1) % 2 ^ 64)

/-- The per-word iterator `repeat_with(|| { let next = v & mask; v >>= bits;
next }).take(packing)`: `p` LSB-first `bits`-wide fields of `w`, each cast to
the destination integer type by `% castMod` (`as u16` for block states,
`as u8` for biomes). -/
def lsbFields (bits castMod : Nat) (w : Nat) : Nat → List Nat
  | 0 => []
  | p + 1 => (w % 2 ^ bits % castMod) :: lsbFields bits castMod (w >>> bits) p

/-- Rust `stream.take(m).zip(array.iter_mut())` over an all-zeros array of length
`m`: entry `j` becomes `stream[j]` when the stream covers it and stays 0
otherwise. -/
def zipIntoZeros (m : Nat) (stream : List Nat) : List Nat :=
  (List.range m).map (fun j => stream.getD j 0)

/-- The 4096 block-state indices of a section: all zeros when
`block_states.data` is absent, otherwise the unpacked stream zipped into the
zero-initialised `BlockData` array. -/
def block_state_indices (paletteCount : Nat) (data : Option (List Nat)) :
    List Nat :=
  match data with
  | none => List.replicate SECTION_BLOCK_COUNT 0
  | some d =>
    let bits := blockBits paletteCount
    let packing := 64 / bits
    zipIntoZeros SECTION_BLOCK_COUNT
      (d.flatMap (fun w => lsbFields bits (2 ^ 16) w packing))

/-- The 64 biome indices of a section: all zeros when `biomes.data` is
absent; when data is present the code computes `packing = 64 / bits`, which
divides by zero (a Rust panic) whenever `bits = 0`, so the embedding assigns
no result there. -/
def biome_indices (paletteCount : Nat) (data : Option (List Nat)) :
    Option (List Nat) :=
  match data with
  | none => some (List.replicate SECTION_BIOME_COUNT 0)
  | some d =>
    let bits := biomeBits paletteCount
    if bits = 0 then
      none
    else
      let packing := 64 / bits
      some (zipIntoZeros SECTION_BIOME_COUNT
        (d.flatMap (fun w => lsbFields bits (2 ^ 8) w packing)))

theorem lsbFields_length (bits castMod w p : Nat) :
    (lsbFields bits castMod w p).length = p := by
  induction p generalizing w with
  | zero => rfl
  | succ q ih => simp [lsbFields, ih]

theorem lsbFields_getD (bits castMod : Nat) :
    ∀ (p k w : Nat), k < p →
      (lsbFields bits castMod w p).getD k 0
        = w / 2 ^ (bits * k) % 2 ^ bits % castMod := by
  intro p
  induction p with
  | zero => intro k w hk; omega
  | succ q ih =>
    intro k w hk
    cases k with
    | zero => simp [lsbFields]
    | succ j =>
      have hj : j < q := by omega
      show (lsbFields bits castMod (w >>> bits) q).getD j 0 = _
      rw [ih j (w >>> bits) hj, Nat.shiftRight_eq_div_pow,
        Nat.div_div_eq_div_mul, ← Nat.pow_add, Nat.mul_succ,
        Nat.add_comm bits (bits * j)]

theorem zipIntoZeros_getD (m : Nat) (s : List Nat) (i : Nat) (hi : i < m) :
    (zipIntoZeros m s).getD i 0 = s.getD i 0 := by
  unfold zipIntoZeros
  rw [List.getD_eq_getElem?_getD, List.getElem?_map, List.getElem?_range hi]
  rfl

/-- Indexing a `flatMap` whose blocks all have the same positive length. -/
theorem flatMap_constLen_getD (f : Nat → List Nat) (L : Nat) (hL : 0 < L)
    (hf : ∀ w, (f w).length = L) :
    ∀ (d : List Nat) (i : Nat), i / L < d.length →
      (d.flatMap f).getD i 0 = (f (d.getD (i / L) 0)).getD (i % L) 0 := by
  intro d
  induction d with
  | nil => intro i hi; simp at hi
  | cons w tl ih =>
    intro i hi
    rw [List.flatMap_cons]
    by_cases hiL : i < L
    · have hdiv : i / L = 0 := Nat.div_eq_of_lt hiL
      have hmod : i % L = i := Nat.mod_eq_of_lt hiL
      rw [List.getD_append _ _ _ _ (by rw [hf]; exact hiL), hdiv, hmod]
      rfl
    · push_neg at hiL
      obtain ⟨j, rfl⟩ : ∃ j, i = j + L := ⟨i - L, by omega⟩
      have hdiv : (j + L) / L = j / L + 1 := Nat.add_div_right j hL
      have hmod : (j + L) % L = j % L := Nat.add_mod_right j L
      have hlen : (f w).length ≤ j + L := by rw [hf]; omega
      rw [List.getD_append_right _ _ _ _ hlen, hf, Nat.add_sub_cancel, hdiv,
        hmod]
      have htl : j / L < tl.length := by
        rw [List.length_cons] at hi
        omega
      rw [ih j htl]
      rfl

theorem bitLenAux_le_iff :
    ∀ (fuel v k : Nat), v ≤ fuel → (bitLenAux fuel v ≤ k ↔ v < 2 ^ k) := by
  intro fuel
  induction fuel with
  | zero =>
    intro v k hv
    have hv0 : v = 0 := Nat.le_zero.mp hv
    subst hv0
    simp [bitLenAux, Nat.pos_pow_of_pos, Nat.pow_pos]
  | succ f ih =>
    intro v k hv
    cases v with
    | zero => simp [bitLenAux, Nat.pow_pos]
    | succ w =>
      show bitLenAux f ((w + 1) / 2) + 1 ≤ k ↔ w + 1 < 2 ^ k
      cases k with
      | zero => simp
      | succ j =>
        have hhalf : (w + 1) / 2 ≤ f := by omega
        rw [Nat.succ_le_succ_iff, ih ((w + 1) / 2) j hhalf, Nat.pow_succ,
          Nat.div_lt_iff_lt_mul (by norm_num : (0 : Nat) < 2)]

theorem bitLen_le_iff (m k : Nat) : bitLen m ≤ k ↔ m < 2 ^ k :=
  bitLenAux_le_iff m m k (Nat.le_refl m)

theorem lt_two_pow_bitLen (m : Nat) : m < 2 ^ bitLen m :=
  (bitLen_le_iff m (bitLen m)).mp (Nat.le_refl _)

/-- The expression `u64::BITS - (n - 1).leading_zeros()` is exactly `⌈log₂ n⌉` for `n ≥ 1`. -/
theorem bitLen_pred_eq_clog (n : Nat) (hn : 1 ≤ n) :
    bitLen (n - 1) = Nat.clog 2 n := by
  apply le_antisymm
  · rw [bitLen_le_iff]
    have : n ≤ 2 ^ Nat.clog 2 n := Nat.le_pow_clog (by norm_num) n
    omega
  · rw [← Nat.le_pow_iff_clog_le (by norm_num)]
    have := lt_two_pow_bitLen (n - 1)
    omega

/-- The value `(n + 2^64 - 1) % 2^64` is an honest `n - 1` in the range the claims
cover. -/
theorem u64_pred_eq (n : Nat) (h1 : 1 ≤ n) (h2 : n ≤ 2 ^ 64) :
    (n + 2 ^ 64 - 1) % 2 ^ 64 = n - 1 := by
  omega

/-! ## Sky-light fill (`RawChunk::parse`, src/world/mod.rs)

Sky-light data is processed top-to-bottom over the chunk's sections (the code
zips the reversed section list).  A 2048-byte rolling buffer starts as
`[-1i8; 2048]` (i.e. every byte `0xFF`); a section with `SkyLight` data
overwrites the buffer verbatim (`copy_from_slice`, which requires exactly
2048 bytes); a section without data duplicates the buffer's bottom 128-byte
nibble-layer into all 16 layers via
`copy_within(0..LAYER_LEN, i)` for `i = LAYER_LEN, 2*LAYER_LEN, ...`. -/

def LAYER_LEN : Nat := 128

def initialSkyBuf : List Nat := List.replicate 2048 255

/-- One top-down step of the sky-light pass. -/
def skyStep (buf : List Nat) (data : Option (List Nat)) : List Nat :=
  match data with
  | some d => d
  | none => List.flatten (List.replicate 16 (buf.take LAYER_LEN))

/-- The whole top-down pass: `ds` lists each section's optional `SkyLight`
bytes from the topmost section downwards; the result lists each section's
final sky-light bytes in the same order. -/
def skyLightPass (buf : List Nat) : List (Option (List Nat)) → List (List Nat)
  | [] => []
  | d :: rest =>
    let next := skyStep buf d
    next :: skyLightPass next rest

/-- The two light nibbles of each byte, lower nibble first
(`[v & 0xF, v >> 4]`). -/
def nibbles (bytes : List Nat) : List Nat :=
  bytes.flatMap (fun v => [v % 16, v / 16 % 16])

/-- Byte-layer `j` of a section's 2048-byte sky-light array (the 128 bytes =
256 nibbles of the 16×16 blocks at section-relative height `j`). -/
def skyLayer (j : Nat) (sky : List Nat) : List Nat :=
  (sky.drop (LAYER_LEN * j)).take LAYER_LEN

theorem drop_join_replicate (L : List Nat) :
    ∀ (m j : Nat), j ≤ m → L.length = LAYER_LEN →
      (List.flatten (List.replicate m L)).drop (LAYER_LEN * j)
        = List.flatten (List.replicate (m - j) L) := by
  intro m j
  induction j generalizing m with
  | zero => intro _ _; simp
  | succ i ih =>
    intro hjm hL
    obtain ⟨m', rfl⟩ : ∃ m', m = m' + 1 := ⟨m - 1, by omega⟩
    rw [List.replicate_succ, List.flatten_cons, Nat.mul_succ,
      Nat.add_comm (LAYER_LEN * i) LAYER_LEN, ← hL, List.drop_append, hL]
    have hsub : m' + 1 - (i + 1) = m' - i := by omega
    rw [hsub]
    exact ih m' (by omega) hL

theorem skyLayer_join_replicate (L : List Nat) (j : Nat) (hj : j < 16)
    (hL : L.length = LAYER_LEN) :
    skyLayer j (List.flatten (List.replicate 16 L)) = L := by
  unfold skyLayer
  rw [drop_join_replicate L 16 j (by omega) hL]
  obtain ⟨t, ht⟩ : ∃ t, 16 - j = t + 1 := ⟨15 - j, by omega⟩
  rw [ht, List.replicate_succ, List.flatten_cons, ← hL, List.take_left]

theorem skyStep_none_layers (buf : List Nat) (hbuf : 128 ≤ buf.length)
    (j : Nat) (hj : j < 16) :
    skyLayer j (skyStep buf none) = skyLayer 0 buf := by
  unfold skyStep
  have hlen : (buf.take LAYER_LEN).length = LAYER_LEN := by
    rw [List.length_take]
    unfold LAYER_LEN
    omega
  rw [skyLayer_join_replicate _ j hj hlen]
  unfold skyLayer
  rw [Nat.mul_zero, List.drop_zero]

/-- Element `k` of the pass output, when section `k` has verbatim data. -/
theorem skyLightPass_data (ds : List (Option (List Nat))) :
    ∀ (buf : List Nat) (k : Nat) (b : List Nat), ds.get? k = some (some b) →
      (skyLightPass buf ds).get? k = some b := by
  induction ds with
  | nil => intro buf k b h; simp at h
  | cons d rest ih =>
    intro buf k b h
    cases k with
    | zero =>
      simp only [List.get?_cons_zero, Option.some_inj] at h
      subst h
      rfl
    | succ k' =>
      simp only [List.get?_cons_succ] at h
      exact ih (skyStep buf d) k' b h

/-- Element `k + 1` of the pass output, when section `k + 1` has no data: it
is one `skyStep none` applied to element `k`. -/
theorem skyLightPass_none_succ (ds : List (Option (List Nat))) :
    ∀ (buf : List Nat) (k : Nat), ds.get? (k + 1) = some none →
      ∃ prev, (skyLightPass buf ds).get? k = some prev ∧
        (skyLightPass buf ds).get? (k + 1) = some (skyStep prev none) := by
  induction ds with
  | nil => intro buf k h; simp at h
  | cons d rest ih =>
    intro buf k h
    cases k with
    | zero =>
      simp only [List.get?_cons_succ] at h
      cases rest with
      | nil => simp at h
      | cons d' rest' =>
        simp only [List.get?_cons_zero, Option.some_inj] at h
        subst h
        exact ⟨skyStep buf d, rfl, rfl⟩
    | succ k' =>
      simp only [List.get?_cons_succ] at h
      obtain ⟨prev, h1, h2⟩ := ih (skyStep buf d) k' h
      exact ⟨prev, h1, h2⟩

theorem flatten_replicate_replicate (m k : Nat) (x : Nat) :
    (List.replicate m (List.replicate k x)).flatten
      = List.replicate (m * k) x := by
  induction m with
  | zero => simp
  | succ m' ih =>
    rw [List.replicate_succ, List.flatten_cons, ih, Nat.succ_mul,
      Nat.add_comm (m' * k) k, List.replicate_add]

theorem nibbles_length (l : List Nat) : (nibbles l).length = 2 * l.length := by
  induction l with
  | nil => rfl
  | cons v tl ih =>
    show (nibbles tl).length + 2 = 2 * (tl.length + 1)
    omega

theorem nibbles_replicate (m v : Nat) :
    nibbles (List.replicate m v)
      = (List.replicate m [v % 16, v / 16 % 16]).flatten := by
  induction m with
  | zero => rfl
  | succ m' ih =>
    rw [List.replicate_succ, List.replicate_succ, List.flatten_cons]
    show (v % 16) :: (v / 16 % 16) :: nibbles (List.replicate m' v) = _
    rw [ih]
    rfl

/-- A data-less step on the all-`0xFF` initial buffer yields all `0xFF`
again. -/
theorem skyStep_initial_none :
    skyStep initialSkyBuf none = List.replicate 2048 255 := by
  unfold skyStep initialSkyBuf
  rw [List.take_replicate]
  have h : min LAYER_LEN 2048 = 128 := by decide
  rw [h, flatten_replicate_replicate]

/-- The all-`0xFF` byte array expands to all-`0xF` nibbles. -/
theorem nibbles_initial :
    nibbles (List.replicate 2048 255) = List.replicate 4096 15 := by
  rw [nibbles_replicate]
  show (List.replicate 2048 [15, 15]).flatten = _
  rw [show [15, 15] = List.replicate 2 (15 : Nat) from rfl,
    flatten_replicate_replicate]

/-- Every section's sky-light array in the pass output has 2048 bytes, given
well-formed (2048-byte) data arrays. -/
theorem skyLightPass_length (ds : List (Option (List Nat))) :
    ∀ (buf : List Nat), buf.length = 2048 →
      (∀ d ∈ ds, ∀ b, d = some b → b.length = 2048) →
      ∀ s ∈ skyLightPass buf ds, s.length = 2048 := by
  induction ds with
  | nil => intro buf _ _ s hs; simp [skyLightPass] at hs
  | cons d rest ih =>
    intro buf hbuf hwf s hs
    have hstep : (skyStep buf d).length = 2048 := by
      cases d with
      | some b => exact hwf (some b) (by simp) b rfl
      | none =>
        unfold skyStep
        rw [List.length_flatten, List.map_replicate, List.sum_replicate,
          smul_eq_mul, List.length_take]
        unfold LAYER_LEN
        omega
    cases hs with
    | head => exact hstep
    | tail _ hs2 =>
      exact ih (skyStep buf d) hstep
        (fun x hx => hwf x (by simp [hx])) s hs2

/-! ## Region chunk extraction (`Region::get_raw_chunk_by_index`,
src/world/mod.rs)

The region stream is an abstract byte list; the per-chunk location record is
the already-parsed big-endian `u32`.  Zlib decompression is performed by the
external `flate2` crate, so the embedding stops at the compressed payload
(`io::copy` from the `take(compressed_size)`-limited reader copies whatever
bytes are available without erroring). -/

def SECTOR_SIZE : Nat := 4096
def COMPRESSION_METHOD_ZLIB : Nat := 2

structure RawChunkM where
  payload : List Nat
deriving Repr, DecidableEq

/-- Rust `read_u32::<BigEndian>()` at `off`: `none` models the `io::Error` of a
short read. -/
def readU32BE (stream : List Nat) (off : Nat) : Option Nat :=
  match stream.get? off, stream.get? (off + 1), stream.get? (off + 2),
      stream.get? (off + 3) with
  | some b0, some b1, some b2, some b3 =>
    some (((b0 * 256 + b1) * 256 + b2) * 256 + b3)
  | _, _, _, _ => none

/-- Rust `Region::get_raw_chunk_by_index` for location record `offset_count`:
record zero yields `Ok(None)`; otherwise seek to
`(record >> 8) * SECTOR_SIZE`, read a big-endian `u32` size, read one
compression-method byte from the `take(size)`-limited reader (EOF when the
stream is short or `size = 0`), reject any method other than 2 (zlib), and
return the `size - 1` payload bytes. -/
def get_raw_chunk_by_index (offset_count : Nat) (stream : List Nat) :
    Except String (Option RawChunkM) :=
  if offset_count = 0 then
    Except.ok none
  else
    let offset := (offset_count >>> 8) * SECTOR_SIZE
    match readU32BE stream offset with
    | none => Except.error "io"
    | some compressed_size =>
      if compressed_size = 0 then
        Except.error "io"
      else
        match stream.get? (offset + 4) with
        | none => Except.error "io"
        | some compression_method =>
          if compression_method ≠ COMPRESSION_METHOD_ZLIB then
            Except.error "compression method not supported"
          else
            Except.ok (some
              ⟨(stream.drop (offset + 5)).take (compressed_size - 1)⟩)

/-! ## Chunk cache (`src/world/cache.rs`)

The backing store — `DimensionInfo::get_raw_chunk` composed with
`RawChunk::parse`, i.e. `.ok().flatten().and_then(|r| r.parse(s).ok())` — is
file I/O plus NBT decoding, abstracted as an oracle
`store : CCoords → Option ChunkM` that yields `none` for a missing or
unparsable chunk.  The `lru` crate's `LruCache` is modelled as a
most-recent-first association list. -/

structure CCoordsM where
  x : Int
  z : Int
deriving Repr, DecidableEq

structure ChunkM where
  id : Nat
  fully_generated : Bool
deriving Repr, DecidableEq

inductive ChunkBoundsM where
  | Unbounded
  | MinMax (min max : CCoordsM)
deriving Repr, DecidableEq

/-- Rust `ChunkBounds::contains`: `Unbounded` contains everything; `MinMax` tests
the half-open ranges `min.x..max.x` and `min.z..max.z`. -/
def ChunkBoundsM.contains (b : ChunkBoundsM) (c : CCoordsM) : Bool :=
  match b with
  | .Unbounded => true
  | .MinMax mn mx =>
    decide (mn.x ≤ c.x) && decide (c.x < mx.x) &&
    decide (mn.z ≤ c.z) && decide (c.z < mx.z)

/-- The fill closure of `ChunkCache::get`: fetch+parse through the oracle,
keep the chunk only when `fully_generated`, else remember `none`. -/
def chunkFill (store : CCoordsM → Option ChunkM) (coords : CCoordsM) :
    Option ChunkM :=
  match store coords with
  | some ch => if ch.fully_generated then some ch else none
  | none => none

/-- Rust `LruCache::get_or_insert`: an existing entry is returned and promoted to
most-recently-used; otherwise the fill value is inserted in front and the
least-recently-used entry is evicted if the capacity is exceeded. -/
def lruGetOrInsert (cap : Nat) (cache : List (CCoordsM × Option ChunkM))
    (k : CCoordsM) (fill : Option ChunkM) :
    Option ChunkM × List (CCoordsM × Option ChunkM) :=
  match cache.find? (fun e => e.1 == k) with
  | some e => (e.2, e :: cache.filter (fun e' => !(e'.1 == k)))
  | none => (fill, ((k, fill) :: cache).take cap)

/-- Rust `ChunkCache::get`: out-of-bounds coordinates short-circuit to `None`
before the store or the LRU is consulted; otherwise look up / fill through
the LRU. -/
def chunkCacheGet (bounds : ChunkBoundsM) (cap : Nat)
    (store : CCoordsM → Option ChunkM)
    (cache : List (CCoordsM × Option ChunkM)) (coords : CCoordsM) :
    Option ChunkM × List (CCoordsM × Option ChunkM) :=
  if !(bounds.contains coords) then
    (none, cache)
  else
    lruGetOrInsert cap cache coords (chunkFill store coords)

/-! ## Image views (`src/canvas/view.rs`)

An `ImageView` wraps an image with a clamped sub-rectangle.  The inherent
`ImageView::view` composes with the *root* image (`&*self.image`), so a view
of a view stores the root directly.  `usize::saturating_add` /
`usize::saturating_sub` are modelled explicitly against
`USIZE_MAX = 2^64 - 1`. -/

def USIZE_MAX : Nat := 2 ^ 64 - 1

/-- Rust `usize::saturating_add`. -/
def satAddUsize (a b : Nat) : Nat := min (a + b) USIZE_MAX

/-- Rust `ImageBuf` as an `Image`: `get_pixel` bound-checks against
width/height and indexes `pixels()[y * width + x]`. -/
structure ImageM (P : Type) where
  width : Nat
  height : Nat
  pixels : List P

def ImageM.get_pixel (img : ImageM P) (x y : Nat) : Option P :=
  if x < img.width ∧ y < img.height then
    img.pixels.get? (y * img.width + x)
  else
    none

/-- Rust `ImageView` over a root `ImageBuf`. -/
structure ImageViewM (P : Type) where
  image : ImageM P
  left : Nat
  top : Nat
  width : Nat
  height : Nat

/-- Rust `ImageView::new`: position and extent clamped to the wrapped
image. -/
def ImageViewM.new (img : ImageM P) (left top width height : Nat) :
    ImageViewM P :=
  let l := min left img.width
  let t := min top img.height
  ⟨img, l, t, min width (img.width - l), min height (img.height - t)⟩

/-- Rust `ImageView::view`: re-wraps the root image at the saturating-added
offsets (the outer view's extent is not consulted). -/
def ImageViewM.view (v : ImageViewM P) (left top width height : Nat) :
    ImageViewM P :=
  ImageViewM.new v.image (satAddUsize left v.left) (satAddUsize top v.top)
    width height

/-- Rust `<ImageView as Image>::get_pixel`: delegate to the wrapped image at
the saturating-added position. -/
def ImageViewM.get_pixel (v : ImageViewM P) (x y : Nat) : Option P :=
  v.image.get_pixel (satAddUsize x v.left) (satAddUsize y v.top)

/-! ## Raw-pixel overlay (`overlay` / `overlay_at`, src/canvas/overlay.rs)

`overlay` walks `min(heights)` destination rows through the raw pixel slice
using each image's raw offset and row stride, blending `min(widths)` pixels
per row; a slice expression out of range is a Rust panic, modelled as
`none`.  The per-slice blend is pixelwise (the scalar kernels; claim C2
covers SIMD equivalence), abstracted over an arbitrary `blend`. -/

structure RawImg (P : Type) where
  pixels : List P
  offset : Nat
  stride : Nat
  width : Nat
  height : Nat

/-- Rust `ImageBuf`'s raw accessors: offset 0, stride = width. -/
def RawImg.ofBuf (pixels : List P) (width height : Nat) : RawImg P :=
  ⟨pixels, 0, width, width, height⟩

/-- Rust `ImageView::new` over any image, seen through its raw accessors:
clamped rectangle, raw offset advanced by `stride * top + left`, stride
unchanged. -/
def RawImg.view (img : RawImg P) (left top width height : Nat) : RawImg P :=
  let l := min left img.width
  let t := min top img.height
  ⟨img.pixels, img.offset + img.stride * t + l, img.stride,
    min width (img.width - l), min height (img.height - t)⟩

/-- Rust slice read `&l[off..off + n]` (`none` on the out-of-range panic). -/
def sliceGet (l : List Q) (off n : Nat) : Option (List Q) :=
  if off + n ≤ l.length then some ((l.drop off).take n) else none

/-- Write-back of a blended slice over `l[off..off + repl.length]`. -/
def writeSlice (l : List P) (off : Nat) (repl : List P) : List P :=
  l.take off ++ repl ++ l.drop (off + repl.length)

/-- The row loop of `overlay`: per row, blend
`dst_pixels[dOff..dOff + cols]` with `src_pixels[sOff..sOff + cols]`
pixelwise, then advance both offsets by their strides. -/
def overlayLoop (blend : P → Q → P) :
    Nat → List P → Nat → Nat → List Q → Nat → Nat → Nat → Option (List P)
  | 0, dstPix, _, _, _, _, _, _ => some dstPix
  | rows + 1, dstPix, dOff, dStr, srcPix, sOff, sStr, cols =>
    match sliceGet dstPix dOff cols, sliceGet srcPix sOff cols with
    | some ds, some ss =>
      overlayLoop blend rows
        (writeSlice dstPix dOff (List.zipWith blend ds ss))
        (dOff + dStr) dStr srcPix (sOff + sStr) sStr cols
    | _, _ => none

/-- Rust `overlay(dst, src)`: `min` overlap, then the row loop. -/
def overlayImgs (blend : P → Q → P) (dst : RawImg P) (src : RawImg Q) :
    Option (List P) :=
  overlayLoop blend (min dst.height src.height) dst.pixels dst.offset
    dst.stride src.pixels src.offset src.stride (min dst.width src.width)

/-- Rust `overlay_at(dst, src, left, top)`: positive offsets move into `dst`,
negative offsets move into `src`, each via a `usize::MAX`-sized view; then
`overlay` on the two views. -/
def overlay_at (blend : P → Q → P) (dst : RawImg P) (src : RawImg Q)
    (left top : Int) : Option (List P) :=
  let dl : Nat := if left < 0 then 0 else left.toNat
  let sl : Nat := if left < 0 then (-left).toNat else 0
  let dt : Nat := if top < 0 then 0 else top.toNat
  let st : Nat := if top < 0 then (-top).toNat else 0
  overlayImgs blend (dst.view dl dt USIZE_MAX USIZE_MAX)
    (src.view sl st USIZE_MAX USIZE_MAX)

/-- Combination of two optional pixels under the blend. -/
def optBlend (blend : P → Q → P) : Option P → Option Q → Option P
  | some p, some q => some (blend p q)
  | _, _ => none

theorem writeSlice_length (l : List P) (off : Nat) (repl : List P)
    (hb : off + repl.length ≤ l.length) :
    (writeSlice l off repl).length = l.length := by
  unfold writeSlice
  rw [List.length_append, List.length_append, List.length_take,
    List.length_drop]
  omega

theorem writeSlice_get? (l : List P) (off : Nat) (repl : List P) (j : Nat)
    (hb : off + repl.length ≤ l.length) :
    (writeSlice l off repl).get? j
      = if off ≤ j ∧ j < off + repl.length then repl.get? (j - off)
        else l.get? j := by
  unfold writeSlice
  rw [List.append_assoc]
  have hto : (l.take off).length = off := by
    rw [List.length_take]
    omega
  by_cases h1 : j < off
  · rw [List.get?_append (by omega : j < (l.take off).length),
      List.get?_take h1, if_neg (by omega)]
  · push_neg at h1
    rw [List.get?_append_right (by omega : (l.take off).length ≤ j), hto]
    by_cases h2 : j < off + repl.length
    · rw [List.get?_append (by omega : j - off < repl.length),
        if_pos ⟨h1, h2⟩]
    · push_neg at h2
      rw [List.get?_append_right (by omega : repl.length ≤ j - off),
        List.get?_drop, if_neg (by omega)]
      congr 1
      omega

theorem sliceGet_some (l : List Q) (off n : Nat) (hb : off + n ≤ l.length) :
    sliceGet l off n = some ((l.drop off).take n) :=
  if_pos hb

theorem slice_get? (l : List Q) (off n c : Nat) (hc : c < n) :
    ((l.drop off).take n).get? c = l.get? (off + c) := by
  rw [List.get?_take hc, List.get?_drop]

theorem slice_length (l : List Q) (off n : Nat) (hb : off + n ≤ l.length) :
    ((l.drop off).take n).length = n := by
  rw [List.length_take, List.length_drop]
  omega

/-- Unique decomposition of a raster index into row and column when the
blended column range fits inside the stride. -/
theorem row_index_decomp (w cols x y r0 : Nat) (hx : x < w)
    (hcols : cols ≤ w) :
    (r0 * w ≤ y * w + x ∧ y * w + x < r0 * w + cols) ↔ (y = r0 ∧ x < cols) := by
  constructor
  · rintro ⟨h1, h2⟩
    have hyr : y = r0 := by
      rcases Nat.lt_trichotomy y r0 with h | h | h
      · exfalso
        have ha : (y + 1) * w ≤ r0 * w := Nat.mul_le_mul_right w h
        have hb2 : y * w + x < (y + 1) * w := by
          rw [Nat.succ_mul]
          omega
        omega
      · exact h
      · exfalso
        have ha : (r0 + 1) * w ≤ y * w := Nat.mul_le_mul_right w h
        rw [Nat.succ_mul] at ha
        omega
    subst hyr
    omega
  · rintro ⟨rfl, hxc⟩
    omega

/-- Full specification of the row loop over a `w × hgt` destination raster
written at stride `w` starting from row `r0`: the loop stays in bounds, keeps
the raster size, blends exactly the `cols`-wide band of the processed rows,
and leaves every other pixel untouched. -/
theorem overlayLoop_spec {P Q : Type} (blend : P → Q → P) (w hgt cols : Nat)
    (hcw : cols ≤ w) (srcPix : List Q) (sStr : Nat) :
    ∀ (rows r0 : Nat) (dstPix : List P) (sOff : Nat),
      dstPix.length = w * hgt →
      r0 + rows ≤ hgt →
      (∀ r, r < rows → sOff + r * sStr + cols ≤ srcPix.length) →
      ∃ out,
        overlayLoop blend rows dstPix (r0 * w) w srcPix sOff sStr cols
          = some out ∧
        out.length = w * hgt ∧
        ∀ x y, x < w → y < hgt →
          out.get? (y * w + x)
            = if r0 ≤ y ∧ y < r0 + rows ∧ x < cols
              then optBlend blend (dstPix.get? (y * w + x))
                     (srcPix.get? (sOff + (y - r0) * sStr + x))
              else dstPix.get? (y * w + x) := by
  intro rows
  induction rows with
  | zero =>
    intro r0 dstPix sOff hlen _ _
    refine ⟨dstPix, rfl, hlen, ?_⟩
    intro x y _ _
    rw [if_neg (by omega)]
  | succ rs ih =>
    intro r0 dstPix sOff hlen hr0 hsrc
    have hr0w : (r0 + 1) * w ≤ w * hgt := by
      rw [Nat.mul_comm w hgt]
      exact Nat.mul_le_mul_right w (by omega)
    have hdb : r0 * w + cols ≤ dstPix.length := by
      rw [hlen]
      rw [Nat.succ_mul] at hr0w
      omega
    have hsb : sOff + cols ≤ srcPix.length := by
      have := hsrc 0 (by omega)
      simpa using this
    set ds := (dstPix.drop (r0 * w)).take cols with hds
    set ss := (srcPix.drop sOff).take cols with hss
    have hdsl : ds.length = cols := slice_length dstPix (r0 * w) cols hdb
    have hssl : ss.length = cols := slice_length srcPix sOff cols hsb
    have hzwl : (List.zipWith blend ds ss).length = cols := by
      rw [List.length_zipWith, hdsl, hssl, Nat.min_self]
    set dst' := writeSlice dstPix (r0 * w) (List.zipWith blend ds ss)
      with hdst'
    have hdst'len : dst'.length = w * hgt := by
      rw [hdst', writeSlice_length _ _ _ (by omega : r0 * w +
        (List.zipWith blend ds ss).length ≤ dstPix.length), hlen]
    obtain ⟨out, hout, houtlen, hchar⟩ :=
      ih (r0 + 1) dst' (sOff + sStr) hdst'len (by omega)
        (fun r hr => by
          have := hsrc (r + 1) (by omega)
          rw [Nat.succ_mul] at this
          omega)
    refine ⟨out, ?_, houtlen, ?_⟩
    · show overlayLoop blend (rs + 1) dstPix (r0 * w) w srcPix sOff sStr cols
        = some out
      rw [overlayLoop, sliceGet_some dstPix (r0 * w) cols hdb,
        sliceGet_some srcPix sOff cols hsb]
      show overlayLoop blend rs dst' (r0 * w + w) w srcPix (sOff + sStr)
        sStr cols = some out
      rw [show r0 * w + w = (r0 + 1) * w from (Nat.succ_mul r0 w).symm]
      exact hout
    · intro x y hx hy
      have hdget : dst'.get? (y * w + x)
          = if y = r0 ∧ x < cols
            then optBlend blend (dstPix.get? (y * w + x))
                   (srcPix.get? (sOff + x))
            else dstPix.get? (y * w + x) := by
        rw [hdst', writeSlice_get? _ _ _ _ (by omega), hzwl]
        by_cases hcase : y = r0 ∧ x < cols
        · obtain ⟨rfl, hxc⟩ := hcase
          rw [if_pos (by omega), if_pos ⟨rfl, hxc⟩]
          have hsub : y * w + x - y * w = x := by omega
          rw [hsub, List.get?_zipWith', hds, hss, slice_get? _ _ _ _ hxc,
            slice_get? _ _ _ _ hxc]
          cases dstPix.get? (y * w + x) with
          | none => rfl
          | some p =>
            cases srcPix.get? (sOff + x) with
            | none => rfl
            | some q => rfl
        · rw [if_neg hcase, if_neg (by
            rw [row_index_decomp w cols x y r0 hx hcw]
            exact hcase)]
      rw [hchar x y hx hy]
      by_cases hc1 : y = r0 ∧ x < cols
      · obtain ⟨rfl, hxc⟩ := hc1
        rw [if_neg (by omega), if_pos ⟨le_refl y, by omega, hxc⟩, hdget,
          if_pos ⟨rfl, hxc⟩, Nat.sub_self, Nat.zero_mul, Nat.add_zero]
      · by_cases hc2 : r0 + 1 ≤ y ∧ y < r0 + 1 + rs ∧ x < cols
        · obtain ⟨hy1, hy2, hxc⟩ := hc2
          rw [if_pos ⟨hy1, hy2, hxc⟩, if_pos ⟨by omega, by omega, hxc⟩, hdget,
            if_neg (by omega)]
          have harith : sOff + sStr + (y - (r0 + 1)) * sStr + x
              = sOff + (y - r0) * sStr + x := by
            obtain ⟨k, hk⟩ : ∃ k, y = r0 + 1 + k := ⟨y - (r0 + 1), by omega⟩
            subst hk
            have h1 : r0 + 1 + k - (r0 + 1) = k := by omega
            have h2 : r0 + 1 + k - r0 = k + 1 := by omega
            rw [h1, h2, Nat.succ_mul]
            omega
          rw [harith]
        · rw [if_neg hc2, if_neg (by omega), hdget, if_neg hc1]

/-! ## Compact ordered property list (`src/proplist.rs`)

Keys and values are UTF-8 byte strings, modelled as `List Nat`; Rust's
`str::cmp` is byte-lexicographic.  An `Item<N>` stores `key ++ value` either
inline in an `N`-byte buffer (zero-padded) plus `u8` key/total lengths, or in
a pooled `BytesMut` allocation plus its capacity and a `u32` key length.  The
`as u8` / `as u32` casts on the stored lengths are identities because
`PropList::with_capacity` asserts `N < 256` and every stored length is
bounded by the buffer length; the pool only affects where bytes live, never
which bytes, so it carries no state here. -/

/-- Byte-lexicographic comparison (Rust `str::cmp` on the UTF-8 bytes). -/
def bytesCmp : List Nat → List Nat → Ordering
  | [], [] => .eq
  | [], _ :: _ => .lt
  | _ :: _, [] => .gt
  | a :: as, b :: bs =>
    if a < b then .lt else if b < a then .gt else bytesCmp as bs

inductive Item (N : Nat) where
  | inline (buf : List Nat) (key_len len : Nat)
  | allocated (buf : List Nat) (cap key_len : Nat)
deriving Repr, DecidableEq

instance : Inhabited (Item N) := ⟨.allocated [] 0 0⟩

/-- Rust `Item::get_split_and_buffer`: the key/value split point and the
occupied buffer slice (`&buf[..len]` for inline, the whole allocation
otherwise). -/
def Item.get_split_and_buffer : Item N → Nat × List Nat
  | .inline buf key_len len => (key_len, buf.take len)
  | .allocated buf _ key_len => (key_len, buf)

/-- Rust `Item::key`. -/
def Item.key (it : Item N) : List Nat :=
  it.get_split_and_buffer.2.take it.get_split_and_buffer.1

/-- Rust `Item::value`. -/
def Item.value (it : Item N) : List Nat :=
  it.get_split_and_buffer.2.drop it.get_split_and_buffer.1

/-- Rust `<Item as PartialEq>::eq`: compare `get_split_and_buffer`. -/
def Item.beq (a b : Item N) : Bool :=
  decide (a.get_split_and_buffer = b.get_split_and_buffer)

/-- Rust `<Item as Hash>::hash`: the exact byte stream fed to the hasher —
`buf[..key_len]`, `0xFF`, `buf[key_len..len]`, `0xFF`. -/
def Item.hashBytes : Item N → List Nat
  | .inline buf key_len len =>
    buf.take key_len ++ [255] ++ (buf.take len).drop key_len ++ [255]
  | .allocated buf _ key_len =>
    buf.take key_len ++ [255] ++ buf.drop key_len ++ [255]

/-- Rust `Item::new`: inline (zero-padded to `N` bytes) when
`key.len() + value.len() ≤ N`, else pool-allocated. -/
def Item.new (key value : List Nat) : Item N :=
  if key.length + value.length ≤ N then
    .inline ((key ++ value) ++
        List.replicate (N - (key.length + value.length)) 0)
      key.length (key.length + value.length)
  else
    .allocated (key ++ value) (key.length + value.length) key.length

/-- Rust `Item::try_update` fused with its failure path in
`PropList::insert` (`*existing = Item::new_allocated(key, value, pool)`):
update in place when the new value fits the existing inline buffer /
allocation capacity, else re-allocate `key ++ value`. -/
def Item.update (it : Item N) (key value : List Nat) : Item N :=
  match it with
  | .inline buf key_len _ =>
    if key_len + value.length ≤ N then
      .inline (buf.take key_len ++ value ++ buf.drop (key_len + value.length))
        key_len (key_len + value.length)
    else
      .allocated (key ++ value) (key.length + value.length) key.length
  | .allocated buf cap key_len =>
    if key_len + value.length ≤ cap then
      .allocated (buf.take key_len ++ value) cap key_len
    else
      .allocated (key ++ value) (key.length + value.length) key.length

/-- Rust `Item::clone`: inline stays inline; an allocation that fits inline
is copied into a zero-padded inline buffer; larger allocations are re-pooled
with the same bytes. -/
def Item.clone : Item N → Item N
  | .inline buf key_len len => .inline buf key_len len
  | .allocated buf _ key_len =>
    if buf.length ≤ N then
      .inline (buf ++ List.replicate (N - buf.length) 0) key_len buf.length
    else
      .allocated buf buf.length key_len

/-- Well-formedness every API-built item satisfies: stored lengths are within
the buffer. -/
def Item.wf : Item N → Prop
  | .inline buf key_len len => buf.length = N ∧ key_len ≤ len ∧ len ≤ N
  | .allocated buf cap key_len => key_len ≤ buf.length ∧ buf.length ≤ cap

/-- The key/value entry of an item. -/
def Item.entry (it : Item N) : List Nat × List Nat := (it.key, it.value)

/-- Rust `slice::binary_search_by` (`items.binary_search_by(|item|
item.key().cmp(key))`): classic halving loop; `.inl i` is `Ok(i)` (found),
`.inr i` is `Err(i)` (insertion point).  The loop runs on explicit fuel (the
caller passes the list length, which bounds the iteration count since the
interval at least halves every step) so that the kernel can evaluate it. -/
def binarySearchLoop (items : List (Item N)) (key : List Nat) :
    Nat → Nat → Nat → Sum Nat Nat
  | 0, lo, _ => .inr lo
  | fuel + 1, lo, hi =>
    if lo < hi then
      let mid := lo + (hi - lo) / 2
      match bytesCmp ((items.getD mid default).key) key with
      | .lt => binarySearchLoop items key fuel (mid + 1) hi
      | .gt => binarySearchLoop items key fuel lo mid
      | .eq => .inl mid
    else
      .inr lo

/-- Rust `PropList::get_item_index`: binary search over the whole item
vector. -/
def get_item_index (items : List (Item N)) (key : List Nat) : Sum Nat Nat :=
  binarySearchLoop items key items.length 0 items.length

structure PropListM (N : Nat) where
  items : List (Item N)

/-- Rust `PropList::insert`: binary-search the key; update the existing item
in place (re-allocating only when the new value does not fit), or insert a
new item at the returned position. -/
def PropListM.insert (pl : PropListM N) (key value : List Nat) :
    PropListM N :=
  match get_item_index pl.items key with
  | .inl i => ⟨pl.items.set i ((pl.items.getD i default).update key value)⟩
  | .inr i => ⟨pl.items.insertIdx i (Item.new key value)⟩

/-- Rust `PropList::remove`. -/
def PropListM.remove (pl : PropListM N) (key : List Nat) :
    Bool × PropListM N :=
  match get_item_index pl.items key with
  | .inl i => (true, ⟨pl.items.eraseIdx i⟩)
  | .inr _ => (false, pl)

/-- Rust `PropList::retain`. -/
def PropListM.retain (pl : PropListM N) (f : List Nat → List Nat → Bool) :
    PropListM N :=
  ⟨pl.items.filter (fun it => f it.key it.value)⟩

/-- Rust `<PropList as Clone>::clone`: item-wise clone (the pool
pre-allocation only affects memory placement). -/
def PropListM.clone (pl : PropListM N) : PropListM N :=
  ⟨pl.items.map Item.clone⟩

/-- Rust `<PropList as FromIterator>::from_iter`: repeated `insert` into an
empty list. -/
def PropListM.from_iter (pairs : List (List Nat × List Nat)) :
    PropListM N :=
  pairs.foldl (fun pl kv => pl.insert kv.1 kv.2) ⟨[]⟩

/-- Rust `<PropList as PartialEq>::eq` (`self.items.eq(&other.items)`):
item-wise `Item::eq`. -/
def itemsBeq : List (Item N) → List (Item N) → Bool
  | [], [] => true
  | a :: as, b :: bs => a.beq b && itemsBeq as bs
  | _, _ => false

def PropListM.beq (a b : PropListM N) : Bool :=
  itemsBeq a.items b.items

/-- Rust tuple ordering on `(&str, &str)`: key first, then value. -/
def pairCmp (a b : List Nat × List Nat) : Ordering :=
  match bytesCmp a.1 b.1 with
  | .eq => bytesCmp a.2 b.2
  | o => o

/-- Rust `Iterator::cmp`: lexicographic comparison of the entry streams. -/
def listCmp : List (List Nat × List Nat) → List (List Nat × List Nat) →
    Ordering
  | [], [] => .eq
  | [], _ :: _ => .lt
  | _ :: _, [] => .gt
  | a :: as, b :: bs =>
    match pairCmp a b with
    | .eq => listCmp as bs
    | o => o

/-- The entry list of a `PropList` (what `iter()` yields). -/
def PropListM.entries (pl : PropListM N) : List (List Nat × List Nat) :=
  pl.items.map Item.entry

/-- Rust `<PropList as Ord>::cmp` (`self.iter().cmp(other.iter())`). -/
def PropListM.cmp (a b : PropListM N) : Ordering :=
  listCmp a.entries b.entries

/-- Rust `<PropList as Hash>::hash`: the items' hash streams in order. -/
def PropListM.hashBytes (pl : PropListM N) : List Nat :=
  (pl.items.map Item.hashBytes).flatten

/-- Strict sortedness by key — the ordering invariant binary search needs. -/
def ItemsSorted (items : List (Item N)) : Prop :=
  items.Pairwise (fun a b => bytesCmp a.key b.key = .lt)

/-- The full invariant: sorted, and every item well-formed. -/
def PropListM.Inv (pl : PropListM N) : Prop :=
  ItemsSorted pl.items ∧ ∀ it ∈ pl.items, it.wf

theorem bytesCmp_self : ∀ (a : List Nat), bytesCmp a a = .eq
  | [] => rfl
  | x :: xs => by
    unfold bytesCmp
    rw [if_neg (Nat.lt_irrefl x), if_neg (Nat.lt_irrefl x)]
    exact bytesCmp_self xs

theorem bytesCmp_eq_iff : ∀ (a b : List Nat), bytesCmp a b = .eq ↔ a = b := by
  intro a
  induction a with
  | nil =>
    intro b
    cases b with
    | nil => simp [bytesCmp]
    | cons y ys => simp [bytesCmp]
  | cons x xs ih =>
    intro b
    cases b with
    | nil => simp [bytesCmp]
    | cons y ys =>
      unfold bytesCmp
      by_cases hxy : x < y
      · rw [if_pos hxy]
        simp
        omega
      · rw [if_neg hxy]
        by_cases hyx : y < x
        · rw [if_pos hyx]
          simp
          omega
        · rw [if_neg hyx]
          have hxy' : x = y := by omega
          subst hxy'
          rw [ih ys]
          simp

theorem bytesCmp_lt_iff_gt : ∀ (a b : List Nat),
    bytesCmp a b = .lt ↔ bytesCmp b a = .gt := by
  intro a
  induction a with
  | nil =>
    intro b
    cases b with
    | nil => simp [bytesCmp]
    | cons y ys => simp [bytesCmp]
  | cons x xs ih =>
    intro b
    cases b with
    | nil => simp [bytesCmp]
    | cons y ys =>
      unfold bytesCmp
      by_cases hxy : x < y
      · rw [if_pos hxy, if_neg (by omega : ¬ y < x), if_pos hxy]
        simp
      · rw [if_neg hxy]
        by_cases hyx : y < x
        · rw [if_pos hyx, if_pos hyx]
          simp
        · rw [if_neg hyx, if_neg hxy, if_neg hyx]
          exact ih ys

theorem bytesCmp_lt_trans : ∀ (a b c : List Nat),
    bytesCmp a b = .lt → bytesCmp b c = .lt → bytesCmp a c = .lt := by
  intro a
  induction a with
  | nil =>
    intro b c h1 h2
    cases b with
    | nil => simp [bytesCmp] at h1
    | cons y ys =>
      cases c with
      | nil => simp [bytesCmp] at h2
      | cons z zs => rfl
  | cons x xs ih =>
    intro b c h1 h2
    cases b with
    | nil => simp [bytesCmp] at h1
    | cons y ys =>
      cases c with
      | nil => simp [bytesCmp] at h2
      | cons z zs =>
        unfold bytesCmp at h1 h2 ⊢
        by_cases hxy : x < y
        · by_cases hyz : y < z
          · rw [if_pos (by omega : x < z)]
          · rw [if_neg hyz] at h2
            by_cases hzy : z < y
            · rw [if_pos hzy] at h2
              cases h2
            · have : y = z := by omega
              subst this
              rw [if_pos hxy]
        · rw [if_neg hxy] at h1
          by_cases hyx : y < x
          · rw [if_pos hyx] at h1
            cases h1
          · rw [if_neg hyx] at h1
            have hxy' : x = y := by omega
            subst hxy'
            by_cases hyz : x < z
            · rw [if_pos hyz]
            · rw [if_neg hyz] at h2 ⊢
              by_cases hzy : z < x
              · rw [if_pos hzy] at h2
                cases h2
              · rw [if_neg hzy] at h2 ⊢
                exact ih ys zs h1 h2

/-! ### Item lemmas -/

theorem Item.gsb_of_wf (it : Item N) (h : it.wf) :
    it.get_split_and_buffer = (it.key.length, it.key ++ it.value) := by
  cases it with
  | inline buf kl len =>
    obtain ⟨hbuf, hkl, hlen⟩ := h
    simp only [Item.get_split_and_buffer, Item.key, Item.value]
    have hklen : ((buf.take len).take kl).length = kl := by
      rw [List.length_take, List.length_take]
      omega
    rw [hklen, List.take_append_drop]
  | allocated buf cap kl =>
    obtain ⟨hkl, _⟩ := h
    simp only [Item.get_split_and_buffer, Item.key, Item.value]
    have hklen : (buf.take kl).length = kl := by
      rw [List.length_take]
      omega
    rw [hklen, List.take_append_drop]

theorem Item.hashBytes_of_wf (it : Item N) (h : it.wf) :
    it.hashBytes = it.key ++ [255] ++ it.value ++ [255] := by
  cases it with
  | inline buf kl len =>
    obtain ⟨hbuf, hkl, hlen⟩ := h
    simp only [Item.hashBytes, Item.key, Item.value, Item.get_split_and_buffer]
    rw [List.take_take, Nat.min_eq_left hkl]
  | allocated buf cap kl =>
    simp only [Item.hashBytes, Item.key, Item.value, Item.get_split_and_buffer]

theorem Item.beq_of_entry (a b : Item N) (ha : a.wf) (hb : b.wf)
    (h : a.entry = b.entry) : a.beq b = true := by
  unfold Item.entry at h
  rw [Prod.mk.injEq] at h
  obtain ⟨h1, h2⟩ := h
  unfold Item.beq
  rw [Item.gsb_of_wf a ha, Item.gsb_of_wf b hb, h1, h2]
  simp

theorem Item.hashBytes_of_entry (a b : Item N) (ha : a.wf) (hb : b.wf)
    (h : a.entry = b.entry) : a.hashBytes = b.hashBytes := by
  unfold Item.entry at h
  rw [Prod.mk.injEq] at h
  obtain ⟨h1, h2⟩ := h
  rw [Item.hashBytes_of_wf a ha, Item.hashBytes_of_wf b hb, h1, h2]

theorem Item.new_wf (key value : List Nat) :
    (Item.new key value : Item N).wf := by
  simp only [Item.new]
  by_cases h : key.length + value.length ≤ N
  · rw [if_pos h]
    refine ⟨?_, by omega, h⟩
    rw [List.length_append, List.length_append, List.length_replicate]
    omega
  · rw [if_neg h]
    refine ⟨?_, ?_⟩ <;> rw [List.length_append] <;> omega

theorem Item.new_entry (key value : List Nat) :
    (Item.new key value : Item N).entry = (key, value) := by
  simp only [Item.new]
  by_cases h : key.length + value.length ≤ N
  · rw [if_pos h]
    simp only [Item.entry, Item.key, Item.value, Item.get_split_and_buffer]
    have htake : ((key ++ value) ++
        List.replicate (N - (key.length + value.length)) 0).take
          (key.length + value.length) = key ++ value :=
      List.take_left' (by rw [List.length_append])
    rw [htake]
    simp only [Prod.mk.injEq]
    exact ⟨List.take_left' rfl, List.drop_left' rfl⟩
  · rw [if_neg h]
    simp only [Item.entry, Item.key, Item.value, Item.get_split_and_buffer]
    simp only [Prod.mk.injEq]
    exact ⟨List.take_left' rfl, List.drop_left' rfl⟩

theorem Item.update_wf (it : Item N) (key value : List Nat) (h : it.wf) :
    (it.update key value).wf := by
  cases it with
  | inline buf kl len =>
    obtain ⟨hbuf, hkl, hlen⟩ := h
    simp only [Item.update]
    by_cases hfit : kl + value.length ≤ N
    · rw [if_pos hfit]
      refine ⟨?_, by omega, hfit⟩
      rw [List.length_append, List.length_append, List.length_take,
        List.length_drop]
      omega
    · rw [if_neg hfit]
      refine ⟨?_, ?_⟩ <;> rw [List.length_append] <;> omega
  | allocated buf cap kl =>
    obtain ⟨hkl, hcap⟩ := h
    simp only [Item.update]
    by_cases hfit : kl + value.length ≤ cap
    · rw [if_pos hfit]
      refine ⟨?_, ?_⟩ <;> rw [List.length_append, List.length_take] <;> omega
    · rw [if_neg hfit]
      refine ⟨?_, ?_⟩ <;> rw [List.length_append] <;> omega

theorem Item.update_entry (it : Item N) (key value : List Nat) (h : it.wf)
    (hk : it.key = key) : (it.update key value).entry = (key, value) := by
  cases it with
  | inline buf kl len =>
    obtain ⟨hbuf, hkl, hlen⟩ := h
    have hbk : buf.take kl = key := by
      rw [← hk]
      simp only [Item.key, Item.get_split_and_buffer]
      rw [List.take_take, Nat.min_eq_left hkl]
    simp only [Item.update]
    by_cases hfit : kl + value.length ≤ N
    · rw [if_pos hfit]
      simp only [Item.entry, Item.key, Item.value, Item.get_split_and_buffer]
      have hlen2 : (buf.take kl ++ value).length = kl + value.length := by
        rw [List.length_append, List.length_take]
        omega
      have htake : ((buf.take kl ++ value) ++
          buf.drop (kl + value.length)).take (kl + value.length)
            = buf.take kl ++ value :=
        List.take_left' hlen2
      rw [htake]
      simp only [Prod.mk.injEq]
      constructor
      · rw [List.take_left' (by rw [List.length_take]; omega), hbk]
      · rw [List.drop_left' (by rw [List.length_take]; omega)]
    · rw [if_neg hfit]
      simp only [Item.entry, Item.key, Item.value, Item.get_split_and_buffer]
      simp only [Prod.mk.injEq]
      exact ⟨List.take_left' rfl, List.drop_left' rfl⟩
  | allocated buf cap kl =>
    obtain ⟨hkl, hcap⟩ := h
    have hbk : buf.take kl = key := by
      rw [← hk]
      simp only [Item.key, Item.get_split_and_buffer]
    simp only [Item.update]
    by_cases hfit : kl + value.length ≤ cap
    · rw [if_pos hfit]
      simp only [Item.entry, Item.key, Item.value, Item.get_split_and_buffer]
      simp only [Prod.mk.injEq]
      constructor
      · rw [List.take_left' (by rw [List.length_take]; omega), hbk]
      · rw [List.drop_left' (by rw [List.length_take]; omega)]
    · rw [if_neg hfit]
      simp only [Item.entry, Item.key, Item.value, Item.get_split_and_buffer]
      simp only [Prod.mk.injEq]
      exact ⟨List.take_left' rfl, List.drop_left' rfl⟩

theorem Item.clone_wf (it : Item N) (h : it.wf) : it.clone.wf := by
  cases it with
  | inline buf kl len => exact h
  | allocated buf cap kl =>
    obtain ⟨hkl, hcap⟩ := h
    simp only [Item.clone]
    by_cases hfit : buf.length ≤ N
    · rw [if_pos hfit]
      refine ⟨?_, hkl, hfit⟩
      rw [List.length_append, List.length_replicate]
      omega
    · rw [if_neg hfit]
      exact ⟨hkl, Nat.le_refl _⟩

theorem Item.clone_entry (it : Item N) (h : it.wf) :
    it.clone.entry = it.entry := by
  cases it with
  | inline buf kl len => rfl
  | allocated buf cap kl =>
    obtain ⟨hkl, hcap⟩ := h
    simp only [Item.clone]
    by_cases hfit : buf.length ≤ N
    · rw [if_pos hfit]
      simp only [Item.entry, Item.key, Item.value, Item.get_split_and_buffer]
      rw [List.take_left]
    · rw [if_neg hfit]
      rfl

theorem sorted_key_lt (items : List (Item N)) (hs : ItemsSorted items)
    (i j : Nat) (hij : i < j) (hj : j < items.length) :
    bytesCmp ((items.getD i default).key) ((items.getD j default).key)
      = .lt := by
  have h := List.pairwise_iff_getElem.mp hs i j (by omega) hj hij
  rwa [List.getD_eq_getElem items default (by omega : i < items.length),
    List.getD_eq_getElem items default hj]

/-- Correctness of the binary-search loop on a sorted item list, by fuel
induction over `hi - lo`. -/
theorem binarySearchLoop_spec (items : List (Item N)) (key : List Nat)
    (hsorted : ItemsSorted items) :
    ∀ (n lo hi : Nat), hi - lo ≤ n → lo ≤ hi → hi ≤ items.length →
      (∀ j, j < lo → bytesCmp ((items.getD j default).key) key = .lt) →
      (∀ j, hi ≤ j → j < items.length →
        bytesCmp ((items.getD j default).key) key = .gt) →
      (match binarySearchLoop items key n lo hi with
       | .inl i => i < items.length ∧ (items.getD i default).key = key
       | .inr i =>
         i ≤ items.length ∧
         (∀ j, j < i → bytesCmp ((items.getD j default).key) key = .lt) ∧
         (∀ j, i ≤ j → j < items.length →
           bytesCmp ((items.getD j default).key) key = .gt)) := by
  intro n
  induction n with
  | zero =>
    intro lo hi hfuel hlohi hhi hleft hright
    exact ⟨by omega, hleft, fun j hj hjlen => hright j (by omega) hjlen⟩
  | succ n' ih =>
    intro lo hi hfuel hlohi hhi hleft hright
    by_cases hlt : lo < hi
    · rw [binarySearchLoop, if_pos hlt]
      have hmid1 : lo ≤ lo + (hi - lo) / 2 := by omega
      have hmid2 : lo + (hi - lo) / 2 < hi := by omega
      cases hcmp : bytesCmp ((items.getD (lo + (hi - lo) / 2) default).key)
          key with
      | lt =>
        simp only [hcmp]
        exact ih (lo + (hi - lo) / 2 + 1) hi (by omega) (by omega) hhi
          (fun j hj => by
            by_cases hjm : j < lo + (hi - lo) / 2
            · exact bytesCmp_lt_trans _ _ _
                (sorted_key_lt items hsorted j (lo + (hi - lo) / 2) hjm
                  (by omega)) hcmp
            · have : j = lo + (hi - lo) / 2 := by omega
              rw [this]
              exact hcmp)
          hright
      | gt =>
        simp only [hcmp]
        exact ih lo (lo + (hi - lo) / 2) (by omega) (by omega) (by omega)
          hleft
          (fun j hj hjlen => by
            by_cases hjm : j = lo + (hi - lo) / 2
            · rw [hjm]
              exact hcmp
            · have hmj : lo + (hi - lo) / 2 < j := by omega
              rw [← bytesCmp_lt_iff_gt]
              exact bytesCmp_lt_trans _ _ _
                ((bytesCmp_lt_iff_gt _ _).mpr hcmp)
                (sorted_key_lt items hsorted (lo + (hi - lo) / 2) j hmj
                  hjlen))
      | eq =>
        simp only [hcmp]
        exact ⟨by omega, (bytesCmp_eq_iff _ _).mp hcmp⟩
    · rw [binarySearchLoop, if_neg hlt]
      exact ⟨by omega, hleft, fun j hj hjlen => hright j (by omega) hjlen⟩

/-! ### Invariant preservation -/

instance : ∀ (it : Item N), Decidable it.wf
  | .inline buf kl len =>
    inferInstanceAs (Decidable (buf.length = N ∧ kl ≤ len ∧ len ≤ N))
  | .allocated buf cap kl =>
    inferInstanceAs (Decidable (kl ≤ buf.length ∧ buf.length ≤ cap))

instance (items : List (Item N)) : Decidable (ItemsSorted items) :=
  inferInstanceAs (Decidable (items.Pairwise _))

instance (pl : PropListM N) : Decidable pl.Inv := by
  unfold PropListM.Inv
  infer_instance

theorem Item.new_key (key value : List Nat) :
    (Item.new key value : Item N).key = key :=
  congrArg Prod.fst (Item.new_entry key value)

theorem insertIdx_eq_take_cons_drop (x : α) :
    ∀ (l : List α) (i : Nat), i ≤ l.length →
      l.insertIdx i x = l.take i ++ x :: l.drop i := by
  intro l
  induction l with
  | nil =>
    intro i hi
    have : i = 0 := by simpa using hi
    subst this
    rfl
  | cons hd tl ih =>
    intro i hi
    cases i with
    | zero => rfl
    | succ i' =>
      rw [List.insertIdx_succ_cons, ih i' (by simpa using hi)]
      rfl

theorem ItemsSorted_set (items : List (Item N)) (hs : ItemsSorted items)
    (i : Nat) (hi : i < items.length) (it' : Item N)
    (hkey : it'.key = (items.getD i default).key) :
    ItemsSorted (items.set i it') := by
  unfold ItemsSorted at hs ⊢
  rw [List.pairwise_iff_getElem] at hs ⊢
  intro a b ha hb hab
  rw [List.length_set] at ha hb
  rw [List.getElem_set, List.getElem_set]
  rw [List.getD_eq_getElem items default hi] at hkey
  by_cases hia : i = a
  · subst hia
    rw [if_pos rfl, if_neg (by omega)]
    rw [hkey]
    exact hs i b (by omega) (by omega) hab
  · rw [if_neg hia]
    by_cases hib : i = b
    · subst hib
      rw [if_pos rfl, hkey]
      exact hs a i (by omega) (by omega) hab
    · rw [if_neg hib]
      exact hs a b (by omega) (by omega) hab

theorem ItemsSorted_insertIdx (items : List (Item N))
    (hs : ItemsSorted items) (i : Nat) (hi : i ≤ items.length) (x : Item N)
    (hlt : ∀ j, j < i → bytesCmp ((items.getD j default).key) x.key = .lt)
    (hgt : ∀ j, i ≤ j → j < items.length →
      bytesCmp x.key ((items.getD j default).key) = .lt) :
    ItemsSorted (items.insertIdx i x) := by
  unfold ItemsSorted at hs ⊢
  rw [insertIdx_eq_take_cons_drop x items i hi, List.pairwise_append]
  have hmem_take : ∀ a ∈ items.take i,
      bytesCmp a.key x.key = .lt := by
    intro a hmem
    obtain ⟨k, hk, hka⟩ := List.mem_iff_getElem.mp hmem
    have hki : k < i := by
      have := hk
      rw [List.length_take] at this
      omega
    have hkl : k < items.length := by
      have := hk
      rw [List.length_take] at this
      omega
    have : (items.take i)[k] = items[k] := List.getElem_take items
    rw [← hka, this, ← List.getD_eq_getElem items default hkl]
    exact hlt k hki
  have hmem_drop : ∀ b ∈ items.drop i,
      bytesCmp x.key b.key = .lt := by
    intro b hmem
    obtain ⟨k, hk, hkb⟩ := List.mem_iff_getElem.mp hmem
    have hkl : i + k < items.length := by
      have := hk
      rw [List.length_drop] at this
      omega
    have : (items.drop i)[k] = items[i + k] := List.getElem_drop _
    rw [← hkb, this, ← List.getD_eq_getElem items default hkl]
    exact hgt (i + k) (by omega) hkl
  refine ⟨hs.sublist (List.take_sublist i items), ?_, ?_⟩
  · rw [List.pairwise_cons]
    exact ⟨hmem_drop, hs.sublist (List.drop_sublist i items)⟩
  · intro a hmema b hmemb
    rcases List.mem_cons.mp hmemb with rfl | hmemb'
    · exact hmem_take a hmema
    · exact bytesCmp_lt_trans _ _ _ (hmem_take a hmema) (hmem_drop b hmemb')

/-- The result of `get_item_index` on a sorted list: found index with
matching key, or an insertion point bracketed by strictly smaller and
strictly greater keys. -/
theorem get_item_index_spec (items : List (Item N)) (key : List Nat)
    (hsorted : ItemsSorted items) :
    (match get_item_index items key with
     | .inl i => i < items.length ∧ (items.getD i default).key = key
     | .inr i =>
       i ≤ items.length ∧
       (∀ j, j < i → bytesCmp ((items.getD j default).key) key = .lt) ∧
       (∀ j, i ≤ j → j < items.length →
         bytesCmp ((items.getD j default).key) key = .gt)) := by
  unfold get_item_index
  exact binarySearchLoop_spec items key hsorted items.length 0 items.length
    (by omega) (by omega) (by omega) (fun j hj => by omega)
    (fun j hj hjl => by omega)

theorem PropListM.insert_Inv (pl : PropListM N) (key value : List Nat)
    (h : pl.Inv) : (pl.insert key value).Inv := by
  obtain ⟨hsorted, hwf⟩ := h
  have hspec := get_item_index_spec pl.items key hsorted
  unfold PropListM.insert
  cases hbs : get_item_index pl.items key with
  | inl i =>
    rw [hbs] at hspec
    obtain ⟨hi, hkey⟩ := hspec
    have hmem : pl.items.getD i default ∈ pl.items := by
      rw [List.getD_eq_getElem pl.items default hi]
      exact List.getElem_mem hi
    have hwfi : (pl.items.getD i default).wf := hwf _ hmem
    refine ⟨?_, ?_⟩
    · refine ItemsSorted_set pl.items hsorted i hi _ ?_
      calc ((pl.items.getD i default).update key value).key
          = key := congrArg Prod.fst
            (Item.update_entry _ key value hwfi hkey)
        _ = (pl.items.getD i default).key := hkey.symm
    · intro it hit
      rcases List.mem_or_eq_of_mem_set hit with hmem' | rfl
      · exact hwf it hmem'
      · exact Item.update_wf _ key value hwfi
  | inr i =>
    rw [hbs] at hspec
    obtain ⟨hi, hlt, hgt⟩ := hspec
    refine ⟨?_, ?_⟩
    · refine ItemsSorted_insertIdx pl.items hsorted i hi _ ?_ ?_
      · intro j hj
        rw [Item.new_key]
        exact hlt j hj
      · intro j hj hjl
        rw [Item.new_key]
        exact (bytesCmp_lt_iff_gt _ _).mpr (hgt j hj hjl)
    · intro it hit
      have hit2 : it ∈ List.insertIdx i (Item.new (N := N) key value)
          pl.items := hit
      rw [insertIdx_eq_take_cons_drop _ pl.items i hi] at hit2
      rcases List.mem_append.mp hit2 with hmem' | hmem'
      · exact hwf it ((List.take_sublist i pl.items).mem hmem')
      · rcases List.mem_cons.mp hmem' with rfl | hmem''
        · exact Item.new_wf key value
        · exact hwf it ((List.drop_sublist i pl.items).mem hmem'')

theorem PropListM.remove_Inv (pl : PropListM N) (key : List Nat)
    (h : pl.Inv) : (pl.remove key).2.Inv := by
  obtain ⟨hsorted, hwf⟩ := h
  unfold PropListM.remove
  cases get_item_index pl.items key with
  | inl i =>
    exact ⟨hsorted.sublist (List.eraseIdx_sublist pl.items i),
      fun it hit => hwf it ((List.eraseIdx_sublist pl.items i).mem hit)⟩
  | inr i => exact ⟨hsorted, hwf⟩

theorem PropListM.retain_Inv (pl : PropListM N)
    (f : List Nat → List Nat → Bool) (h : pl.Inv) : (pl.retain f).Inv := by
  obtain ⟨hsorted, hwf⟩ := h
  exact ⟨hsorted.sublist (List.filter_sublist pl.items),
    fun it hit => hwf it ((List.filter_sublist pl.items).mem hit)⟩

theorem PropListM.clone_Inv (pl : PropListM N) (h : pl.Inv) :
    (pl.clone).Inv ∧ pl.clone.entries = pl.entries := by
  obtain ⟨hsorted, hwf⟩ := h
  refine ⟨⟨?_, ?_⟩, ?_⟩
  · unfold PropListM.clone ItemsSorted
    rw [List.pairwise_map]
    refine List.Pairwise.imp_of_mem ?_ hsorted
    intro a b hma hmb hab
    have hka : a.clone.key = a.key :=
      congrArg Prod.fst (Item.clone_entry a (hwf a hma))
    have hkb : b.clone.key = b.key :=
      congrArg Prod.fst (Item.clone_entry b (hwf b hmb))
    rw [hka, hkb]
    exact hab
  · intro it hit
    obtain ⟨a, hma, rfl⟩ := List.mem_map.mp hit
    exact Item.clone_wf a (hwf a hma)
  · unfold PropListM.clone PropListM.entries
    rw [List.map_map]
    exact List.map_congr_left (fun a hma => Item.clone_entry a (hwf a hma))

theorem PropListM.empty_Inv : (⟨[]⟩ : PropListM N).Inv :=
  ⟨List.Pairwise.nil, fun it hit => absurd hit (List.not_mem_nil it)⟩

theorem PropListM.from_iter_Inv (pairs : List (List Nat × List Nat)) :
    (PropListM.from_iter (N := N) pairs).Inv := by
  unfold PropListM.from_iter
  have hgen : ∀ (ps : List (List Nat × List Nat)) (pl : PropListM N),
      pl.Inv → (ps.foldl (fun pl kv => pl.insert kv.1 kv.2) pl).Inv := by
    intro ps
    induction ps with
    | nil => intro pl h; exact h
    | cons kv rest ih =>
      intro pl h
      exact ih _ (pl.insert_Inv kv.1 kv.2 h)
  exact hgen pairs ⟨[]⟩ PropListM.empty_Inv

/-! ### Content determines equality, ordering and hashing -/

/-- Strict entry order by key. -/
def entryLt (a b : List Nat × List Nat) : Prop := bytesCmp a.1 b.1 = .lt

instance : IsAntisymm (List Nat × List Nat) entryLt where
  antisymm a b h1 h2 := by
    exfalso
    have hgt := (bytesCmp_lt_iff_gt b.1 a.1).mp h2
    rw [h1] at hgt
    cases hgt

theorem entries_sorted (pl : PropListM N) (h : pl.Inv) :
    pl.entries.Pairwise entryLt := by
  obtain ⟨hs, _⟩ := h
  unfold PropListM.entries
  rw [List.pairwise_map]
  exact hs.imp (fun hab => hab)

theorem listCmp_self : ∀ (l : List (List Nat × List Nat)),
    listCmp l l = .eq
  | [] => rfl
  | a :: as => by
    have hp : pairCmp a a = .eq := by
      unfold pairCmp
      simp only [bytesCmp_self]
    show (match pairCmp a a with
      | .eq => listCmp as as
      | o => o) = .eq
    simp only [hp]
    exact listCmp_self as

theorem itemsBeq_of_entries : ∀ (la lb : List (Item N)),
    (∀ it ∈ la, it.wf) → (∀ it ∈ lb, it.wf) →
    la.map Item.entry = lb.map Item.entry → itemsBeq la lb = true := by
  intro la
  induction la with
  | nil =>
    intro lb _ _ h
    cases lb with
    | nil => rfl
    | cons b bs => simp at h
  | cons a as ih =>
    intro lb hwa hwb h
    cases lb with
    | nil => simp at h
    | cons b bs =>
      simp only [List.map_cons, List.cons.injEq] at h
      obtain ⟨h1, h2⟩ := h
      show (a.beq b && itemsBeq as bs) = true
      rw [Item.beq_of_entry a b (hwa a (by simp)) (hwb b (by simp)) h1,
        ih bs (fun it hit => hwa it (by simp [hit]))
          (fun it hit => hwb it (by simp [hit])) h2]
      rfl

theorem mapHashBytes_of_entries : ∀ (la lb : List (Item N)),
    (∀ it ∈ la, it.wf) → (∀ it ∈ lb, it.wf) →
    la.map Item.entry = lb.map Item.entry →
    la.map Item.hashBytes = lb.map Item.hashBytes := by
  intro la
  induction la with
  | nil =>
    intro lb _ _ h
    cases lb with
    | nil => rfl
    | cons b bs => simp at h
  | cons a as ih =>
    intro lb hwa hwb h
    cases lb with
    | nil => simp at h
    | cons b bs =>
      simp only [List.map_cons, List.cons.injEq] at h ⊢
      obtain ⟨h1, h2⟩ := h
      exact ⟨Item.hashBytes_of_entry a b (hwa a (by simp)) (hwb b (by simp))
          h1,
        ih bs (fun it hit => hwa it (by simp [hit]))
          (fun it hit => hwb it (by simp [hit])) h2⟩

theorem PropListM.content_determines (a b : PropListM N) (ha : a.Inv)
    (hb : b.Inv) (hperm : a.entries.Perm b.entries) :
    a.beq b = true ∧ a.cmp b = .eq ∧ a.hashBytes = b.hashBytes := by
  have hentries : a.entries = b.entries :=
    List.eq_of_perm_of_sorted hperm (entries_sorted a ha)
      (entries_sorted b hb)
  refine ⟨?_, ?_, ?_⟩
  · exact itemsBeq_of_entries a.items b.items ha.2 hb.2 hentries
  · unfold PropListM.cmp
    rw [hentries]
    exact listCmp_self _
  · unfold PropListM.hashBytes
    rw [mapHashBytes_of_entries a.items b.items ha.2 hb.2 hentries]

end Mcrender

namespace Mcrender

/-! ## Claim theorems (C1, C3) -/

/-- C1: claimed that `ImageBuf::from_raw(width, height, buf)` returns `Some`
exactly when `buf` contains at least `width * height * channels` subpixels and
that every constructed buffer satisfies that invariant.  The code's check is
inverted (`if len < buf.len() { None }` instead of `if buf.len() < len`):
with `P = Rgba<u8>` (4 channels) and `width = height = 1`, a 5-subpixel
buffer — which satisfies the invariant — is rejected, while a 2-subpixel
buffer is accepted, violates the invariant, and makes `channels()`
(`&data[..len]`) panic. -/
theorem C1_from_raw_check_inverted :
    (ImageBufM.from_raw 4 1 1 ([0, 0, 0, 0, 0] : List Nat)).isNone = true ∧
    ∃ img, ImageBufM.from_raw 4 1 1 ([0, 0] : List Nat) = some img ∧
      ¬ img.bufferInvariant 4 ∧ img.channels = none := by
  refine ⟨by decide, ⟨1, 1, 4, [0, 0]⟩, by decide, by decide, by decide⟩

/-- C3: `blend_final_pixel_u8(bg, fg, fg_a)` keeps `bg` when `fg_a = 0`,
returns `fg`'s RGB when `fg_a = 255`, and otherwise computes per channel the
spec's §4.2 integer formula `(num + ((num + 257) >> 8)) >> 8` with
`num = fg.c * fg.a + bg.c * (255 - fg.a)`; and blending
`[200, 0, 0, 128]` over `[100, 100, 100]` lands within ±1 per channel of
`[150, 50, 50]`. -/
theorem C3_blend_final_pixel_u8_correct (bg fg : Nat × Nat × Nat) (a : Nat)
    (ha : a ≤ 255) :
    (a = 0 → blend_final_pixel_u8 bg fg a = bg) ∧
    (a = 255 → blend_final_pixel_u8 bg fg a = fg) ∧
    (0 < a → a < 255 →
      blend_final_pixel_u8 bg fg a =
        (specBlendChannel bg.1 fg.1 a, specBlendChannel bg.2.1 fg.2.1 a,
          specBlendChannel bg.2.2 fg.2.2 a)) ∧
    withinOne (blend_final_pixel_u8 (100, 100, 100) (200, 0, 0) 128)
      (150, 50, 50) := by
  refine ⟨fun h0 => ?_, fun h255 => ?_, fun hpos hlt => ?_, by decide⟩
  · simp [blend_final_pixel_u8, h0]
  · simp [blend_final_pixel_u8, h255]
  · have h0 : a ≠ 0 := Nat.pos_iff_ne_zero.mp hpos
    have h255 : a ≠ 255 := Nat.ne_of_lt hlt
    simp [blend_final_pixel_u8, h0, h255, specBlendChannel, u16_div_by_255]

/-! ### Equivalence of the SIMD blend with the scalar blend (per pixel) -/

theorem u16x16_div_by_255_eq_scalar (x : Nat) (hx : x ≤ 65025) :
    u16x16_div_by_255 x = u16_div_by_255 x := by
  unfold u16x16_div_by_255 u16_div_by_255 satAdd16
  have h1 : min (x + 257) 65535 = x + 257 := by omega
  rw [h1]
  have h2 : (x + 257) >>> 8 ≤ 255 := by
    rw [Nat.shiftRight_eq_div_pow]; omega
  have h3 : min (x + (x + 257) >>> 8) 65535 = x + (x + 257) >>> 8 := by omega
  rw [h3]

theorem u16_div_by_255_mul255 (c : Nat) (hc : c ≤ 255) :
    u16_div_by_255 (c * 255) = c := by
  rw [u16_div_by_255_eq]
  omega

/-- The SIMD channel blend agrees with the scalar cases: identity at alpha 0,
source at alpha 255, the div-by-255 blend otherwise. -/
theorem simd_blend_channel_cases (d s al : Nat) (hd : d ≤ 255) (hs : s ≤ 255)
    (ha : al ≤ 255) :
    simd_blend_channel d s al =
      if al = 0 then d
      else if al = 255 then s
      else u16_div_by_255 (s * al + d * (255 - al)) := by
  unfold simd_blend_channel mullo16 satSub16 satAdd16
  have hsa : s * al ≤ 65025 :=
    le_trans (Nat.mul_le_mul hs ha) (by norm_num)
  have hda : d * (255 - al) ≤ 65025 :=
    le_trans (Nat.mul_le_mul hd (Nat.sub_le 255 al)) (by norm_num)
  rw [Nat.mod_eq_of_lt (Nat.lt_of_le_of_lt hsa (by norm_num)),
    Nat.mod_eq_of_lt (Nat.lt_of_le_of_lt hda (by norm_num))]
  have hsum : s * al + d * (255 - al) ≤ 65025 := by
    have h1 : s * al ≤ 255 * al := Nat.mul_le_mul_right _ hs
    have h2 : d * (255 - al) ≤ 255 * (255 - al) := Nat.mul_le_mul_right _ hd
    have h3 : 255 * al + 255 * (255 - al) = 255 * 255 := by
      rw [← Nat.mul_add]; congr 1; omega
    calc s * al + d * (255 - al) ≤ 255 * al + 255 * (255 - al) :=
          Nat.add_le_add h1 h2
      _ = 255 * 255 := h3
      _ = 65025 := by norm_num
  have hmin : min (s * al + d * (255 - al)) 65535 = s * al + d * (255 - al) := by
    omega
  rw [hmin]
  by_cases h0 : al = 0
  · subst h0
    rw [if_pos rfl]
    simp only [Nat.mul_zero, Nat.zero_add, Nat.sub_zero]
    rw [u16x16_div_by_255_eq_scalar _ (by omega), u16_div_by_255_mul255 d hd]
  · by_cases h255 : al = 255
    · subst h255
      rw [if_neg h0, if_pos rfl]
      simp only [Nat.sub_self, Nat.mul_zero, Nat.add_zero]
      rw [u16x16_div_by_255_eq_scalar _ (by omega), u16_div_by_255_mul255 s hs]
    · rw [if_neg h0, if_neg h255]
      exact u16x16_div_by_255_eq_scalar _ hsum

/-- Per-pixel bit-identity of the AVX2/SSE4 blend with the scalar
`overlay_final`. -/
theorem simd_blend_pixel_eq (dst src : Rgba) (hd : dst.bytes) (hs : src.bytes) :
    simd_blend_pixel dst src = overlay_final_pixel dst src := by
  obtain ⟨hdr, hdg, hdb, _⟩ := hd
  obtain ⟨hsr, hsg, hsb, hsa⟩ := hs
  unfold simd_blend_pixel overlay_final_pixel blend_final_pixel_u8
  rw [simd_blend_channel_cases _ _ _ hdr hsr hsa,
    simd_blend_channel_cases _ _ _ hdg hsg hsa,
    simd_blend_channel_cases _ _ _ hdb hsb hsa]
  by_cases h0 : src.a = 0
  · simp only [h0, reduceIte]
  · by_cases h255 : src.a = 255
    · simp only [h0, h255, reduceIte]
      norm_num
    · simp only [h0, h255, reduceIte]

/-- On byte-valued pixels the zipped SIMD blend equals the zipped scalar
blend. -/
theorem zipWith_simd_eq_scalar (dst src : List Rgba)
    (hd : ∀ p ∈ dst, p.bytes) (hs : ∀ p ∈ src, p.bytes) :
    dst.zipWith simd_blend_pixel src = dst.zipWith overlay_final_pixel src := by
  induction dst generalizing src with
  | nil => simp
  | cons p ps ih =>
    cases src with
    | nil => simp
    | cons q qs =>
      simp only [List.zipWith_cons_cons]
      refine congrArg₂ _ ?_ ?_
      · exact simd_blend_pixel_eq p q (hd p (by simp)) (hs q (by simp))
      · exact ih qs (fun x hx => hd x (by simp [hx]))
          (fun x hx => hs x (by simp [hx]))

/-- The AVX2-dispatched `overlay_final` (AVX2 kernel plus scalar remainder)
equals the pure-scalar result on equal-length byte-valued slices. -/
theorem avx2_dispatch_eq_scalar (b : Bool) (dst src : List Rgba)
    (hlen : dst.length = src.length)
    (hd : ∀ p ∈ dst, p.bytes) (hs : ∀ p ∈ src, p.bytes) :
    rgba8_overlay_final_slice true b dst src =
      some (scalar_rgba8_overlay_final dst src).1 := by
  have hzw := zipWith_simd_eq_scalar dst src hd hs
  set n := 8 * (dst.length / 8) with hn
  have hnle : n ≤ dst.length := by
    rw [hn, Nat.mul_comm]
    exact Nat.div_mul_le_self dst.length 8
  have hzwlen : (dst.zipWith simd_blend_pixel src).length = dst.length := by
    rw [List.length_zipWith, hlen, Nat.min_self]
  have htakelen : ((dst.zipWith simd_blend_pixel src).take n).length = n := by
    rw [List.length_take, hzwlen]
    omega
  have hd1len :
      ((dst.zipWith simd_blend_pixel src).take n ++ dst.drop n).length
        = dst.length := by
    rw [List.length_append, htakelen, List.length_drop]
    omega
  have hscal : (scalar_rgba8_overlay_final dst src).1 =
      dst.zipWith overlay_final_pixel src := by
    unfold scalar_rgba8_overlay_final
    rw [← hlen, List.drop_length, List.append_nil]
  unfold rgba8_overlay_final_slice avx2_rgba8_overlay_final
  rw [if_pos hlen, if_pos rfl]
  simp only [← hn, hd1len, hscal]
  by_cases hcase : n < dst.length
  · rw [if_pos hcase]
    have htake :
        ((dst.zipWith simd_blend_pixel src).take n ++ dst.drop n).take n
          = (dst.zipWith simd_blend_pixel src).take n :=
      List.take_left' htakelen
    have hdrop :
        ((dst.zipWith simd_blend_pixel src).take n ++ dst.drop n).drop n
          = dst.drop n :=
      List.drop_left' htakelen
    rw [htake, hdrop]
    have hsrclen : (src.drop n).length = dst.length - n := by
      rw [List.length_drop, hlen]
    have hscal2 : (scalar_rgba8_overlay_final (dst.drop n) (src.drop n)).1 =
        (dst.drop n).zipWith overlay_final_pixel (src.drop n) := by
      unfold scalar_rgba8_overlay_final
      have hdd : List.drop (n + (dst.length - n)) dst = [] :=
        List.drop_eq_nil_of_le (by omega)
      rw [hsrclen, List.drop_drop, hdd, List.append_nil]
    rw [hscal2, hzw, ← List.drop_zipWith, List.take_append_drop]
  · rw [if_neg hcase]
    have hneq : n = dst.length := by omega
    have : (dst.zipWith simd_blend_pixel src).take n
        = dst.zipWith simd_blend_pixel src := by
      rw [hneq, ← hzwlen, List.take_length]
    rw [this, hneq, List.drop_length, List.append_nil, hzw]

/-- C2: claimed that each SIMD kernel processes a whole-vector-width prefix of
the slice, returns the number of pixels it consumed, and that the dispatcher
completes the remainder with the scalar kernel, making the dispatched result
equal the pure-scalar result.  `sse4::rgba8_overlay_final` iterates
`(0..len).step_by(4)` with no bounds check on the final chunk: on a 5-pixel
slice its 16-byte vector loads/stores touch pixel indices up to 7 (out of
bounds) and it reports 8 pixels processed, so the dispatcher's
`n < self.len()` remainder pass never runs; the scalar path on the same
input is well defined.  (`avx2::rgba8_overlay_final` breaks off the partial
chunk correctly; see `avx2_dispatch_eq_scalar`.) -/
theorem C2_sse4_kernel_missing_bounds_check :
    sse4_overlay_final_count 5 = 8 ∧
    sse4_overlay_final_touched 5 = [0, 1, 2, 3, 4, 5, 6, 7] ∧
    ¬ (sse4_overlay_final_count 5 < 5) ∧
    rgba8_overlay_final_slice false true
      (List.replicate 5 ⟨0, 0, 0, 255⟩) (List.replicate 5 ⟨10, 20, 30, 40⟩)
      = none ∧
    (rgba8_overlay_final_slice false false
      (List.replicate 5 ⟨0, 0, 0, 255⟩)
      (List.replicate 5 ⟨10, 20, 30, 40⟩)).isSome = true := by
  refine ⟨by decide, by decide, by decide, ?_, ?_⟩
  · decide
  · decide

/-- C4: for a section with `block_states.data` present, the state index of the
block at flat index `i` is the `(i % packing)`-th `bits`-wide LSB-first field
of 64-bit word `i / packing`, where `bits = max(4, ⌈log₂(palette)⌉)` and
`packing = 64 / bits` (trailing word bits discarded by construction); with
absent data all indices are 0; biome unpacking uses `bits = ⌈log₂(palette)⌉`
with no minimum, so a 1-entry block palette gets `bits = 4` while a 1-entry
biome palette gets `bits = 0`, for which present data divides by zero
(`packing = 64 / 0`, a panic) and only absent data is well defined. -/
theorem C4_packed_palette_unpacking (n i : Nat) (d : List Nat)
    (hn1 : 1 ≤ n) (hn2 : n ≤ 65536) (hi : i < 4096)
    (hid : i / (64 / blockBits n) < d.length) :
    (block_state_indices n (some d)).getD i 0
      = d.getD (i / (64 / blockBits n)) 0
          / 2 ^ (blockBits n * (i % (64 / blockBits n))) % 2 ^ blockBits n ∧
    (block_state_indices n none).getD i 0 = 0 ∧
    blockBits n = max 4 (Nat.clog 2 n) ∧
    biomeBits n = Nat.clog 2 n ∧
    blockBits 1 = 4 ∧ biomeBits 1 = 0 ∧
    (∀ d', (biome_indices 1 (some d')).isNone = true) ∧
    biome_indices 1 none = some (List.replicate 64 0) := by
  have hwrap : (n + 2 ^ 64 - 1) % 2 ^ 64 = n - 1 :=
    u64_pred_eq n hn1 (by omega)
  have hbb : blockBits n = max 4 (bitLen (n - 1)) := by
    unfold blockBits; rw [hwrap]
  have hble : bitLen (n - 1) ≤ 16 := (bitLen_le_iff _ _).mpr (by omega)
  have hbits16 : blockBits n ≤ 16 := by rw [hbb]; omega
  have hbits4 : 4 ≤ blockBits n := by rw [hbb]; omega
  have hpack : 0 < 64 / blockBits n :=
    Nat.div_pos (le_trans hbits16 (by norm_num)) (by omega)
  have hbiome1 : biomeBits 1 = 0 := by decide
  refine ⟨?_, ?_, ?_, ?_, by decide, hbiome1, ?_, ?_⟩
  · show (zipIntoZeros SECTION_BLOCK_COUNT
        (d.flatMap (fun w =>
          lsbFields (blockBits n) (2 ^ 16) w (64 / blockBits n)))).getD i 0 = _
    rw [zipIntoZeros_getD SECTION_BLOCK_COUNT _ i hi]
    rw [flatMap_constLen_getD _ (64 / blockBits n) hpack
      (fun w => lsbFields_length _ _ w _) d i hid]
    rw [lsbFields_getD _ _ _ _ _ (Nat.mod_lt i hpack)]
    exact Nat.mod_eq_of_lt (Nat.lt_of_lt_of_le
      (Nat.mod_lt _ (Nat.pos_pow_of_pos _ (by norm_num)))
      (Nat.pow_le_pow_right (by norm_num) hbits16))
  · show (List.replicate SECTION_BLOCK_COUNT 0).getD i 0 = 0
    rw [List.getD_eq_getElem?_getD, List.getElem?_replicate]
    by_cases h : i < SECTION_BLOCK_COUNT <;> simp [h]
  · rw [hbb, bitLen_pred_eq_clog n hn1]
  · unfold biomeBits; rw [hwrap, bitLen_pred_eq_clog n hn1]
  · intro d'
    simp [biome_indices, hbiome1]
  · rfl

/-- C5 (amended): sections are processed top-down (`ds` lists the optional
`SkyLight` arrays from the topmost section downwards).  A section with data
uses it verbatim; a section without data has each of its 16 byte-layers
(128 bytes = 256 nibbles each) set to a copy of the bottom layer of the
section immediately above, which propagates through consecutive data-less
sections; if the topmost section lacks data its sky light is all `0xF`
nibbles. -/
theorem C5_sky_light_fill (ds : List (Option (List Nat)))
    (hwf : ∀ d ∈ ds, ∀ b, d = some b → b.length = 2048) :
    (∀ k b, ds.get? k = some (some b) →
      (skyLightPass initialSkyBuf ds).get? k = some b) ∧
    (ds.get? 0 = some none →
      (skyLightPass initialSkyBuf ds).get? 0
        = some (List.replicate 2048 255)) ∧
    nibbles (List.replicate 2048 255) = List.replicate 4096 15 ∧
    (∀ k, ds.get? (k + 1) = some none →
      ∃ prev, (skyLightPass initialSkyBuf ds).get? k = some prev ∧
        (skyLightPass initialSkyBuf ds).get? (k + 1)
          = some (skyStep prev none) ∧
        ∀ j, j < 16 → skyLayer j (skyStep prev none) = skyLayer 0 prev) := by
  refine ⟨skyLightPass_data ds initialSkyBuf, ?_, nibbles_initial, ?_⟩
  · intro h0
    cases ds with
    | nil => simp at h0
    | cons d rest =>
      simp only [List.get?_cons_zero, Option.some_inj] at h0
      subst h0
      show some (skyStep initialSkyBuf none) = _
      rw [skyStep_initial_none]
  · intro k hk
    obtain ⟨prev, h1, h2⟩ := skyLightPass_none_succ ds initialSkyBuf k hk
    refine ⟨prev, h1, h2, fun j hj => ?_⟩
    have hmem : prev ∈ skyLightPass initialSkyBuf ds := List.get?_mem h1
    have hlen : prev.length = 2048 :=
      skyLightPass_length ds initialSkyBuf
        (by unfold initialSkyBuf; rw [List.length_replicate]) hwf prev hmem
    exact skyStep_none_layers prev (by omega) j hj

/-- C6 (amended): chunk extraction yields `Ok(None)` — without reading any
chunk data — exactly when the whole 32-bit location record is zero (offset
and sector count both zero); for any non-zero record it seeks to
`(record >> 8) * SECTOR_SIZE`, reads a big-endian `u32` compressed size and a
compression-method byte, errors whenever that byte differs from 2 (zlib), and
otherwise hands the payload to the zlib decoder. -/
theorem C6_chunk_extraction (record : Nat) (stream : List Nat) :
    (record = 0 → get_raw_chunk_by_index record stream = Except.ok none) ∧
    (∀ stream', get_raw_chunk_by_index 0 stream
      = get_raw_chunk_by_index 0 stream') ∧
    (record ≠ 0 → ∀ size method,
      readU32BE stream ((record >>> 8) * SECTOR_SIZE) = some size →
      size ≠ 0 →
      stream.get? ((record >>> 8) * SECTOR_SIZE + 4) = some method →
      method ≠ COMPRESSION_METHOD_ZLIB →
      get_raw_chunk_by_index record stream
        = Except.error "compression method not supported") ∧
    (record ≠ 0 → ∀ size,
      readU32BE stream ((record >>> 8) * SECTOR_SIZE) = some size →
      size ≠ 0 →
      stream.get? ((record >>> 8) * SECTOR_SIZE + 4)
        = some COMPRESSION_METHOD_ZLIB →
      get_raw_chunk_by_index record stream
        = Except.ok (some ⟨(stream.drop
            ((record >>> 8) * SECTOR_SIZE + 5)).take (size - 1)⟩)) := by
  refine ⟨?_, ?_, ?_, ?_⟩
  · intro h
    subst h
    rfl
  · intro stream'
    rfl
  · intro hrec size method hread hsize hmeth hne
    unfold get_raw_chunk_by_index
    rw [if_neg hrec]
    simp only [hread, hsize, reduceIte, hmeth, if_pos hne]
  · intro hrec size hread hsize hmeth
    unfold get_raw_chunk_by_index
    rw [if_neg hrec]
    simp only [hread, hsize, reduceIte, hmeth]
    rw [if_neg (by simp)]

/-- Witness for C6: record 1 (offset 0, sector count 1) over the stream
`[0, 0, 0, 2, 1]` — compressed size 2, compression method 1 — is rejected
with the unsupported-compression error. -/
theorem C6_chunk_extraction_witness :
    get_raw_chunk_by_index 1 [0, 0, 0, 2, 1]
      = Except.error "compression method not supported" :=
  (C6_chunk_extraction 1 [0, 0, 0, 2, 1]).2.2.1 (by decide) 2 1 rfl
    (by decide) rfl (by decide)

/-- C6 counterexample to the claim as stated: the claim reads "an offset of
zero means no chunk here", but the code tests the *whole* record against
zero.  Record 1 has `offset_sectors = 0` yet a non-zero sector count; the
code does not yield `Ok(None)` for it — it seeks to byte 0 and fails on the
compression byte of this stream. -/
theorem C6_offset_zero_not_absent :
    (1 : Nat) >>> 8 = 0 ∧
    get_raw_chunk_by_index 1 [0, 0, 0, 2, 1]
      ≠ Except.ok none := by
  refine ⟨by decide, ?_⟩
  intro h
  have heval : get_raw_chunk_by_index 1 [0, 0, 0, 2, 1]
      = Except.error "compression method not supported" := rfl
  rw [heval] at h
  exact Except.noConfusion h

/-- C7: `ChunkCache::get` returns `None` for out-of-bounds coordinates
without consulting the store or mutating the LRU; for in-bounds misses it
inserts the fill value — `Some` exactly for a fetched, parsed and
`fully_generated` chunk, `None` for missing, unparsable, or partial chunks —
and for in-bounds hits it returns the remembered entry and only promotes it.
The store never enters the out-of-bounds path at all (the result is the same
for every store). -/
theorem C7_chunk_cache_get (bounds : ChunkBoundsM) (cap : Nat)
    (store : CCoordsM → Option ChunkM)
    (cache : List (CCoordsM × Option ChunkM)) (coords : CCoordsM) :
    (bounds.contains coords = false →
      chunkCacheGet bounds cap store cache coords = (none, cache)) ∧
    (bounds.contains coords = true →
      cache.find? (fun e => e.1 == coords) = none →
      chunkCacheGet bounds cap store cache coords
        = (chunkFill store coords,
            ((coords, chunkFill store coords) :: cache).take cap)) ∧
    (∀ ch, chunkFill store coords = some ch ↔
      store coords = some ch ∧ ch.fully_generated = true) ∧
    (bounds.contains coords = true →
      ∀ e, cache.find? (fun x => x.1 == coords) = some e →
      chunkCacheGet bounds cap store cache coords
        = (e.2, e :: cache.filter (fun x => !(x.1 == coords)))) := by
  refine ⟨?_, ?_, ?_, ?_⟩
  · intro hout
    unfold chunkCacheGet
    rw [hout]
    rfl
  · intro hin hmiss
    unfold chunkCacheGet lruGetOrInsert
    rw [hin, hmiss]
    rfl
  · intro ch
    unfold chunkFill
    cases hst : store coords with
    | none => simp
    | some c =>
      by_cases hf : c.fully_generated = true
      · simp [hf]
        intro h
        subst h
        exact hf
      · simp [hf]
        intro h
        subst h
        simp at hf
        simp [hf]
  · intro hin e hhit
    unfold chunkCacheGet lruGetOrInsert
    rw [hin, hhit]
    rfl

/-- Witness for C7: a one-chunk bounds filter rejects an outside coordinate
with the cache untouched. -/
theorem C7_chunk_cache_get_witness :
    chunkCacheGet (ChunkBoundsM.MinMax ⟨0, 0⟩ ⟨1, 1⟩) 4
      (fun _ => some ⟨42, true⟩) [] ⟨5, 5⟩ = (none, []) :=
  (C7_chunk_cache_get (ChunkBoundsM.MinMax ⟨0, 0⟩ ⟨1, 1⟩) 4
    (fun _ => some ⟨42, true⟩) [] ⟨5, 5⟩).1 (by decide)

/-- C8: view composition — for offsets and extents whose composed rectangle
lies within the root's bounds, `root.view(a, b, w, h).view(c, d, W, H)` has
the same width, height and pixels as the single view
`root.view(a + c, b + d, W, H)`. -/
theorem C8_view_composition {P : Type} (root : ImageM P)
    (a b w h c d W H : Nat)
    (hwmax : root.width < 2 ^ 64) (hhmax : root.height < 2 ^ 64)
    (hx : a + c + W ≤ root.width) (hy : b + d + H ≤ root.height) :
    ((ImageViewM.new root a b w h).view c d W H).width
      = (ImageViewM.new root (a + c) (b + d) W H).width ∧
    ((ImageViewM.new root a b w h).view c d W H).height
      = (ImageViewM.new root (a + c) (b + d) W H).height ∧
    ∀ x y, x < W → y < H →
      ((ImageViewM.new root a b w h).view c d W H).get_pixel x y
        = (ImageViewM.new root (a + c) (b + d) W H).get_pixel x y := by
  have hL : satAddUsize c (min a root.width) = a + c := by
    unfold satAddUsize USIZE_MAX
    omega
  have hT : satAddUsize d (min b root.height) = b + d := by
    unfold satAddUsize USIZE_MAX
    omega
  have hview : (ImageViewM.new root a b w h).view c d W H
      = ImageViewM.new root (a + c) (b + d) W H := by
    show ImageViewM.new root (satAddUsize c (min a root.width))
        (satAddUsize d (min b root.height)) W H = _
    rw [hL, hT]
  rw [hview]
  exact ⟨rfl, rfl, fun x y _ _ => rfl⟩

/-- C9: `overlay_at(dst, src, -n, -m)` with `n, m ≥ 0` blends exactly the
destination pixels `(x, y)` for which `(x + n, y + m)` falls inside `src`,
leaves every other destination pixel unchanged, and performs no
out-of-bounds access (the result is `some`, i.e. no slice panic); the
clamping to the overlap is by the two `usize::MAX`-sized views. -/
theorem C9_overlay_at_negative_offsets {P Q : Type} (blend : P → Q → P)
    (pix : List P) (spix : List Q) (w h w' h' n m : Nat)
    (hw : w < 2 ^ 64) (hh : h < 2 ^ 64) (hw' : w' < 2 ^ 64)
    (hh' : h' < 2 ^ 64)
    (hd : pix.length = w * h) (hs : spix.length = w' * h') :
    ∃ out,
      overlay_at blend (RawImg.ofBuf pix w h) (RawImg.ofBuf spix w' h')
        (-(n : Int)) (-(m : Int)) = some out ∧
      out.length = w * h ∧
      ∀ x y, x < w → y < h →
        out.get? (y * w + x)
          = if x + n < w' ∧ y + m < h'
            then optBlend blend (pix.get? (y * w + x))
                   (spix.get? ((y + m) * w' + (x + n)))
            else pix.get? (y * w + x) := by
  have hdview : (RawImg.ofBuf pix w h).view 0 0 USIZE_MAX USIZE_MAX
      = RawImg.mk pix 0 w w h := by
    have hminw : min USIZE_MAX w = w := by unfold USIZE_MAX; omega
    have hminh : min USIZE_MAX h = h := by unfold USIZE_MAX; omega
    show RawImg.mk pix (0 + w * min 0 h + min 0 w) w
        (min USIZE_MAX (w - min 0 w)) (min USIZE_MAX (h - min 0 h))
        = RawImg.mk pix 0 w w h
    simp only [Nat.zero_min, Nat.mul_zero, Nat.add_zero, Nat.sub_zero,
      Nat.zero_add, hminw, hminh]
  have hsview : (RawImg.ofBuf spix w' h').view n m USIZE_MAX USIZE_MAX
      = RawImg.mk spix (w' * min m h' + min n w') w' (w' - min n w')
          (h' - min m h') := by
    have h1 : min USIZE_MAX (w' - min n w') = w' - min n w' := by
      unfold USIZE_MAX
      omega
    have h2 : min USIZE_MAX (h' - min m h') = h' - min m h' := by
      unfold USIZE_MAX
      omega
    show RawImg.mk spix (0 + w' * min m h' + min n w') w'
        (min USIZE_MAX (w' - min n w')) (min USIZE_MAX (h' - min m h'))
        = RawImg.mk spix (w' * min m h' + min n w') w' (w' - min n w')
          (h' - min m h')
    rw [h1, h2, Nat.zero_add]
  have hat : overlay_at blend (RawImg.ofBuf pix w h) (RawImg.ofBuf spix w' h')
      (-(n : Int)) (-(m : Int))
      = overlayImgs blend (RawImg.mk pix 0 w w h)
          (RawImg.mk spix (w' * min m h' + min n w') w' (w' - min n w')
            (h' - min m h')) := by
    unfold overlay_at
    have hdl : (if (-(n : Int)) < 0 then (0 : Nat) else (-(n : Int)).toNat)
        = 0 := by split <;> omega
    have hsl : (if (-(n : Int)) < 0 then (-(-(n : Int))).toNat else 0)
        = n := by split <;> omega
    have hdt : (if (-(m : Int)) < 0 then (0 : Nat) else (-(m : Int)).toNat)
        = 0 := by split <;> omega
    have hst : (if (-(m : Int)) < 0 then (-(-(m : Int))).toNat else 0)
        = m := by split <;> omega
    rw [hdl, hsl, hdt, hst]
    show overlayImgs blend
        ((RawImg.ofBuf pix w h).view 0 0 USIZE_MAX USIZE_MAX)
        ((RawImg.ofBuf spix w' h').view n m USIZE_MAX USIZE_MAX) = _
    rw [hdview, hsview]
  set cols := min w (w' - min n w') with hcols
  set rows := min h (h' - min m h') with hrows
  set sOff := w' * min m h' + min n w' with hsOff
  have hsrcbound : ∀ r, r < rows → sOff + r * w' + cols ≤ spix.length := by
    intro r hr
    have hr1 : min m h' + r + 1 ≤ h' := by omega
    have hcl : min n w' + cols ≤ w' := by omega
    have hexp : w' * (min m h' + r + 1) = w' * min m h' + w' * r + w' := by
      ring
    have hle1 : sOff + r * w' + cols ≤ w' * (min m h' + r + 1) := by
      rw [hexp, Nat.mul_comm w' r]
      omega
    have hle2 : w' * (min m h' + r + 1) ≤ w' * h' :=
      Nat.mul_le_mul_left w' hr1
    rw [hs]
    omega
  obtain ⟨out, hout, houtlen, hchar⟩ :=
    overlayLoop_spec blend w h cols (by omega) spix w' rows 0 pix sOff hd
      (by omega) hsrcbound
  rw [Nat.zero_mul] at hout
  refine ⟨out, ?_, houtlen, ?_⟩
  · rw [hat]
    unfold overlayImgs
    exact hout
  · intro x y hx hy
    rw [hchar x y hx hy]
    have hcond : (0 ≤ y ∧ y < 0 + rows ∧ x < cols)
        ↔ (x + n < w' ∧ y + m < h') := by
      constructor
      · rintro ⟨-, hyr, hxc⟩
        omega
      · rintro ⟨hxn, hym⟩
        refine ⟨Nat.zero_le y, by omega, by omega⟩
    by_cases hc : x + n < w' ∧ y + m < h'
    · rw [if_pos (hcond.mpr hc), if_pos hc, Nat.sub_zero]
      have hidx : sOff + y * w' + x = (y + m) * w' + (x + n) := by
        obtain ⟨hxn, hym⟩ := hc
        have hm : min m h' = m := by omega
        have hn : min n w' = n := by omega
        rw [hsOff, hm, hn, Nat.add_mul, Nat.mul_comm w' m, Nat.mul_comm y w',
          Nat.mul_comm m w']
        omega
      rw [hidx]
    · rw [if_neg (fun hcontra => hc (hcond.mp hcontra)), if_neg hc]

/-- Witness for C9: overlaying a 2×1 source at offset `(-1, 0)` over a 2×1
destination blends only destination pixel `(0, 0)` — the overlap of the
shifted source — and leaves pixel `(1, 0)` unchanged. -/
theorem C9_overlay_at_negative_offsets_witness :
    ∃ out,
      overlay_at (fun a b => a + b) (RawImg.ofBuf [10, 20] 2 1)
        (RawImg.ofBuf [1, 2] 2 1) (-(1 : Nat) : Int) (-(0 : Nat) : Int)
        = some out ∧
      out.length = 2 * 1 ∧
      ∀ x y, x < 2 → y < 1 →
        out.get? (y * 2 + x)
          = if x + 1 < 2 ∧ y + 0 < 1
            then optBlend (fun a b => a + b) ([10, 20].get? (y * 2 + x))
                   ([1, 2].get? ((y + 0) * 2 + (x + 1)))
            else [10, 20].get? (y * 2 + x) :=
  C9_overlay_at_negative_offsets (fun a b => a + b) [10, 20] [1, 2]
    2 1 2 1 1 0 (by decide) (by decide) (by decide) (by decide) (by decide)
    (by decide)

/-- Witness for C8 on a 4×4 root: chaining `view(1,1,2,2).view(1,0,2,2)`
reads the same pixel as `view(2,1,2,2)`. -/
theorem C8_view_composition_witness :
    ((ImageViewM.new (⟨4, 4, List.range 16⟩ : ImageM Nat) 1 1 2 2).view
        1 0 2 2).get_pixel 0 0
      = (ImageViewM.new (⟨4, 4, List.range 16⟩ : ImageM Nat) 2 1 2
          2).get_pixel 0 0 :=
  (C8_view_composition (⟨4, 4, List.range 16⟩ : ImageM Nat) 1 1 2 2 1 0 2 2
    (by decide) (by decide) (by decide) (by decide)).2.2 0 0
    (by decide) (by decide)

/-- Witness for C5 on a two-section chunk whose top section has constant
sky-light data and whose bottom section has none: the data section is used
verbatim. -/
theorem C5_sky_light_fill_witness :
    (skyLightPass initialSkyBuf
        [some (List.replicate 2048 7), none]).get? 0
      = some (List.replicate 2048 7) := by
  refine (C5_sky_light_fill [some (List.replicate 2048 7), none] ?_).1 0
    (List.replicate 2048 7) rfl
  intro d hd b hb
  rcases List.mem_cons.mp hd with rfl | hd2
  · cases hb
    rw [List.length_replicate]
  · rcases List.mem_cons.mp hd2 with rfl | hd3
    · cases hb
    · cases hd3

/-- C5 counterexample to the claim as stated: the duplicated bottom
nibble-layer of the section above is 128 bytes and therefore 256 nibbles —
not 128 nibbles.  On a concrete two-section chunk (top has data, bottom has
none), the bottom section becomes 16 copies of the 128-byte bottom layer of
the section above, and that layer expands to 256 nibbles. -/
theorem C5_layer_has_256_nibbles :
    (nibbles (skyLayer 0 ((skyLightPass initialSkyBuf
        [some (List.replicate 2048 7), none]).getD 1 []))).length = 256 ∧
    (256 : Nat) ≠ 128 ∧
    (skyLightPass initialSkyBuf [some (List.replicate 2048 7), none]).getD 1 []
      = List.flatten (List.replicate 16
          (skyLayer 0 (List.replicate 2048 7))) := by
  have hstep :
      (skyLightPass initialSkyBuf
          [some (List.replicate 2048 7), none]).getD 1 []
        = skyStep (List.replicate 2048 7) none := rfl
  have hlayer : skyLayer 0 (List.replicate 2048 7)
      = List.replicate 128 7 := by
    unfold skyLayer
    rw [Nat.mul_zero, List.drop_zero, List.take_replicate]
    rfl
  have hbody : skyStep (List.replicate 2048 7) none
      = List.flatten (List.replicate 16 (List.replicate 128 7)) := by
    unfold skyStep
    rw [List.take_replicate]
    rfl
  refine ⟨?_, by decide, ?_⟩
  · rw [hstep, hbody, flatten_replicate_replicate]
    have hl : skyLayer 0 (List.replicate (16 * 128) 7)
        = List.replicate 128 7 := by
      unfold skyLayer
      rw [Nat.mul_zero, List.drop_zero, List.take_replicate]
      rfl
    rw [hl, nibbles_length]
    rfl
  · rw [hstep, hbody, hlayer]

/-- Witness for C4 at a 2-entry palette (`bits = 4`, `packing = 16`), one data
word `2^20`, flat index 5: the extracted field is `(2^20 >> 20) & 0xF = 1`. -/
theorem C4_packed_palette_unpacking_witness :
    (block_state_indices 2 (some [1048576])).getD 5 0
      = [1048576].getD (5 / (64 / blockBits 2)) 0
          / 2 ^ (blockBits 2 * (5 % (64 / blockBits 2))) % 2 ^ blockBits 2 :=
  (C4_packed_palette_unpacking 2 5 [1048576] (by decide) (by decide)
    (by decide) (by decide)).1

/-- Witness for C3 at `bg = (100, 100, 100)`, `fg = (200, 0, 0)`, `a = 128`. -/
theorem C3_blend_final_pixel_u8_correct_witness :
    blend_final_pixel_u8 (100, 100, 100) (200, 0, 0) 128 =
      (specBlendChannel 100 200 128, specBlendChannel 100 0 128,
        specBlendChannel 100 0 128) :=
  (C3_blend_final_pixel_u8_correct (100, 100, 100) (200, 0, 0) 128
    (by decide)).2.2.1 (by decide) (by decide)

/-- Claim C10 (PropList content-determines-identity): every mutating
operation — `insert`, `remove`, `retain`, `clone`, `from_iter` — preserves
the invariant that items are strictly sorted by key (hence have no duplicate
keys) and well formed; `clone` additionally preserves the entry list; and any
two PropLists holding the same key→value entries (up to permutation, hence —
by sortedness — identical entry lists), regardless of how each entry is
stored (inline or pool-allocated), satisfy: equality returns `true`,
comparison returns `Equal`, and hashing feeds identical byte streams to the
hasher. -/
theorem C10_proplist_content_identity {N : Nat} :
    (∀ (pl : PropListM N) (key value : List Nat),
      pl.Inv → (pl.insert key value).Inv) ∧
    (∀ (pl : PropListM N) (key : List Nat),
      pl.Inv → (pl.remove key).2.Inv) ∧
    (∀ (pl : PropListM N) (f : List Nat → List Nat → Bool),
      pl.Inv → (pl.retain f).Inv) ∧
    (∀ pl : PropListM N,
      pl.Inv → pl.clone.Inv ∧ pl.clone.entries = pl.entries) ∧
    (∀ pairs : List (List Nat × List Nat),
      (PropListM.from_iter (N := N) pairs).Inv) ∧
    (∀ a b : PropListM N, a.Inv → b.Inv → a.entries.Perm b.entries →
      a.beq b = true ∧ a.cmp b = .eq ∧ a.hashBytes = b.hashBytes) :=
  ⟨fun pl k v => PropListM.insert_Inv pl k v,
    fun pl k => PropListM.remove_Inv pl k,
    fun pl f => PropListM.retain_Inv pl f,
    fun pl => PropListM.clone_Inv pl,
    PropListM.from_iter_Inv,
    fun a b => PropListM.content_determines a b⟩

/-- Witness for C10 at `N = 2`: the list built by `from_iter` from the single
entry `([1], [2])` (stored inline) and the hand-built list holding the same
entry as a pool allocation compare equal, order as `Equal` and hash to the
same byte stream. -/
theorem C10_proplist_content_identity_witness :
    (PropListM.from_iter (N := 2) [([1], [2])]).beq
        ⟨[Item.allocated [1, 2] 2 1]⟩ = true ∧
    (PropListM.from_iter (N := 2) [([1], [2])]).cmp
        ⟨[Item.allocated [1, 2] 2 1]⟩ = .eq ∧
    (PropListM.from_iter (N := 2) [([1], [2])]).hashBytes
      = (⟨[Item.allocated [1, 2] 2 1]⟩ : PropListM 2).hashBytes :=
  C10_proplist_content_identity.2.2.2.2.2
    (PropListM.from_iter (N := 2) [([1], [2])])
    ⟨[Item.allocated [1, 2] 2 1]⟩ (by decide) (by decide) (by decide)

end Mcrender
